import Mathlib

/-!
Verification of the script-to-transcript aligner (`aligner.js`).

The aligner is a pure function over in-memory data, so it is embedded
shallowly: JS strings become `List Char`, JS arrays become `List`,
JS numbers carrying scores/timestamps become `ℚ`, absent fields become
`Option`, and the thrown `Error` of the entry point becomes `Except`.
Every definition mirrors the corresponding source function; spec-side
definitions (used to compare the code with the specification prose) are
marked as such in their doc comments.
-/

namespace Aligner

/-- Strings of the JS source, as lists of characters. -/
abbrev Str := List Char

-- ─── Text normalization (source: normalize / tokenize / splitScriptIntoLines) ───

/-- Membership of the JS regex class `\w` (ASCII word characters). -/
def isWordChar (c : Char) : Bool :=
  (('a' ≤ c) && (c ≤ 'z')) || (('A' ≤ c) && (c ≤ 'Z')) ||
  (('0' ≤ c) && (c ≤ '9')) || (c = '_')

/-- Membership of the JS regex class `\s`, restricted to its ASCII part. -/
def isWsChar (c : Char) : Bool :=
  (c = ' ') || (c = '\t') || (c = '\n') || (c = '\r') ||
  (c = '\x0b') || (c = '\x0c')

/-- The effect of JS `toLowerCase` on one character (ASCII range). -/
def jsToLower (c : Char) : Char :=
  if ('A' ≤ c) && (c ≤ 'Z') then Char.ofNat (c.toNat + 32) else c

/-- One character of the source's `.replace(/[^\w\s']/g, ' ')`: every
character that is not a word character, whitespace or an apostrophe is
replaced by a space. -/
def punctToSpace (c : Char) : Char :=
  if isWordChar c || isWsChar c || c = '\'' then c else ' '

/-- State machine behind `collapseWs`; the flag records whether the scan
is inside a whitespace run whose single replacement space was already
emitted. -/
def collapseWsAux : Bool → Str → Str
  | _, [] => []
  | inRun, c :: rest =>
    if isWsChar c then
      if inRun then collapseWsAux true rest else ' ' :: collapseWsAux true rest
    else c :: collapseWsAux false rest

/-- The source's `.replace(/\s+/g, ' ')`: each maximal run of whitespace
characters collapses to a single space. -/
def collapseWs (l : Str) : Str := collapseWsAux false l

/-- JS `String.prototype.trim`: strip whitespace from both ends. -/
def jsTrim (l : Str) : Str :=
  ((l.dropWhile isWsChar).reverse.dropWhile isWsChar).reverse

/-- Source `normalize(text)`: lowercase, replace non-word, non-space,
non-apostrophe characters by spaces, collapse whitespace runs, trim. -/
def normalize (text : Str) : Str :=
  jsTrim (collapseWs ((text.map jsToLower).map punctToSpace))

/-- JS `String.prototype.split(sep)` for a one-character separator. -/
def splitOnChar (sep : Char) (l : Str) : List Str :=
  l.foldr (fun c acc => if c = sep then [] :: acc else (c :: acc.headD []) :: acc.tail) [[]]

/-- Source `tokenize(text)`: normalize, then split on spaces; empty
normalized text yields no tokens. -/
def tokenize (text : Str) : List Str :=
  let n := normalize text
  if n = [] then [] else splitOnChar ' ' n

/-- Test of the source regex `^[-=*_]{3,}$` on an already-trimmed line. -/
def isSeparatorLine (l : Str) : Bool :=
  decide (3 ≤ l.length) && l.all (fun c => c = '-' || c = '=' || c = '*' || c = '_')

/-- Test for a sentence-terminal character, the class `[.!?]`. -/
def isSentEnd (c : Char) : Bool := (c = '.') || (c = '!') || (c = '?')

/-- Split on the regex `(?<=[.!?])\s+`: a cut happens at each maximal
whitespace run directly preceded by a sentence-terminal character.  The
first argument accumulates the current piece in reverse. -/
def sentencePieces : Str → Str → List Str
  | acc, [] => [acc.reverse]
  | acc, c :: rest =>
    if isWsChar c && (acc.headD ' ' |> isSentEnd) then
      acc.reverse :: sentencePieces [] (rest.dropWhile isWsChar)
    else
      sentencePieces (c :: acc) rest
termination_by _ l => l.length
decreasing_by
  · exact Nat.lt_succ_of_le (List.dropWhile_sublist _ |>.length_le)
  · exact Nat.lt_succ_self _

/-- Source `splitScriptIntoLines`: split on newlines, trim, drop empty
pieces and separator-only pieces, and split over-long pieces (> 200
characters) into sentences. -/
def splitScriptIntoLines (scriptText : Str) : List Str :=
  (splitOnChar '\n' scriptText).flatMap (fun raw =>
    let trimmed := jsTrim raw
    if trimmed = [] then []
    else if isSeparatorLine trimmed then []
    else if 200 < trimmed.length then
      (sentencePieces [] trimmed).filterMap (fun s =>
        let st := jsTrim s
        if st = [] then none else some st)
    else [trimmed])

-- ─── Similarity scoring (source: jaccard / lcsLength / lcsRatio / wordOrderScore / combinedScore) ───

/-- Helper of `firstOccs`: the `seen` argument plays the role of the JS
`Set`/`Map` keys inserted so far. -/
def firstOccsAux (seen : List Str) : List Str → List Str
  | [] => []
  | x :: xs => if x ∈ seen then firstOccsAux seen xs else x :: firstOccsAux (x :: seen) xs

/-- Insertion-order list of the distinct elements of a list, as the keys
of a JS `Set`/`Map` built by scanning the list from the left. -/
def firstOccs (l : List Str) : List Str := firstOccsAux [] l

/-- Source `jaccard(a, b)`: intersection size over union size of the two
token sets. -/
def jaccard (a b : List Str) : ℚ :=
  if a = [] ∧ b = [] then 0
  else
    let setA := firstOccs a
    let setB := firstOccs b
    let inter := (setA.filter (· ∈ setB)).length
    let union := setA.length + setB.length - inter
    if union = 0 then 0 else (inter : ℚ) / (union : ℚ)

/-- Row `i + 1` of the source's LCS table, given row `i` as the function
`prev`: the value stored in `curr[j]`, where the current element of `a`
is `a[i]`.  `Uint16Array` stores wrap modulo 2^16, which the `+ 1` branch
makes explicit; the `max` branch stores an already-stored (hence
in-range) value. -/
def lcsNextRow (a b : List Str) (i : ℕ) (prev : ℕ → ℕ) : ℕ → ℕ
  | 0 => 0
  | j + 1 =>
    if (a[i]?).isSome ∧ a[i]? = b[j]? then (prev j + 1) % 65536
    else max (prev (j + 1)) (lcsNextRow a b i prev j)

/-- Cell (i, j) of the source's rolling two-row LCS table: the value of
`prev[j]` once `i` rows have been produced. -/
def lcsCell (a b : List Str) : ℕ → ℕ → ℕ
  | 0 => fun _ => 0
  | i + 1 => lcsNextRow a b i (lcsCell a b i)

/-- Source `lcsLength(a, b)`: the bottom-right cell of the table, 0 when
either input is empty. -/
def lcsLength (a b : List Str) : ℕ :=
  if a.length = 0 ∨ b.length = 0 then 0 else lcsCell a b a.length b.length

/-- Source `lcsRatio(a, b)` = lcsLength / max(len a, len b). -/
def lcsRatio (a b : List Str) : ℚ :=
  let maxLen := max a.length b.length
  if maxLen = 0 then 0 else (lcsLength a b : ℚ) / (maxLen : ℚ)

/-- Normalized first-occurrence position of a token in a list, the value
`positions[0] / Math.max(len - 1, 1)` of the source. -/
def normPos (l : List Str) (w : Str) : ℚ :=
  (l.indexOf w : ℚ) / (max (l.length - 1) 1 : ℕ)

/-- Source `wordOrderScore(a, b)`: position pairs of the words shared by
both inputs, in the insertion order of the position map built from `a`. -/
def wordOrderScore (a b : List Str) : ℚ :=
  let pairs := (firstOccs a).filterMap (fun w =>
    if w ∈ b then some (normPos a w, normPos b w) else none)
  if pairs.length < 2 then (if 0 < pairs.length then 0.5 else 0)
  else
    let totalDiff := (pairs.map (fun p => |p.1 - p.2|)).sum
    let meanDiff := totalDiff / (pairs.length : ℚ)
    max 0 (1 - meanDiff)

/-- Source `combinedScore(scriptWords, segmentWords)`. -/
def combinedScore (scriptWords segmentWords : List Str) : ℚ :=
  if scriptWords = [] ∨ segmentWords = [] then 0
  else
    0.35 * jaccard scriptWords segmentWords +
    0.45 * lcsRatio scriptWords segmentWords +
    0.20 * wordOrderScore scriptWords segmentWords

-- ─── Transcript data model ──────────────────────────────────────────────────

/-- One word with timestamps, as produced by the speech-to-text engine.
The JS field `end` is called `stop` here (`end` is a Lean keyword). -/
structure Word where
  text : Str
  start : ℚ
  stop : ℚ
deriving DecidableEq, Inhabited

/-- One transcript segment.  `words` is `none` when the JS value is absent
or not an array.  The JS field `end` is called `stop` here. -/
structure Segment where
  text : Str
  start : ℚ
  stop : ℚ
  words : Option (List Word)
deriving DecidableEq, Inhabited

/-- The transcript object passed to the entry point; its `segments` field
may be missing. -/
structure TranscriptObj where
  segments : Option (List Segment)
deriving DecidableEq

/-- JS `array.join(' ')` over a list of strings. -/
def joinSpace (texts : List Str) : Str := List.intercalate [' '] texts

/-- Source `scoreMultiSegment`: score a script line against the
concatenated text of segments `[startIdx, endIdx)`.  The source's
`segWordCache` only memoizes `tokenize` results and does not change
values, so it has no counterpart here. -/
def scoreMultiSegment (scriptWords : List Str) (segments : List Segment)
    (startIdx endIdx : ℕ) : ℚ :=
  combinedScore scriptWords
    (tokenize (joinSpace (((segments.drop startIdx).take (endIdx - startIdx)).map (·.text))))

-- ─── Dynamic programming alignment (source: dpAlign) ────────────────────────

/-- Source constant `MAX_SPAN`. -/
def MAX_SPAN : ℕ := 3

/-- Source `score[s][t][span]` of `dpAlign`: the precomputed score table
entry, as a pure function. -/
def spanScore (scriptTokens : List (List Str)) (segments : List Segment)
    (s t span : ℕ) : ℚ :=
  scoreMultiSegment (scriptTokens.getD s []) segments t (t + span)

/-- The `(t2, span)` pairs enumerated by the source's nested match loops
at state `t`, in iteration order: `t2` ascending over `[t, T)`, `span`
ascending over `[1, min (MAX_SPAN, T - t2)]`. -/
def optionPairs (T t : ℕ) : List (ℕ × ℕ) :=
  (List.range' t (T - t)).flatMap (fun t2 =>
    (List.range' 1 (min MAX_SPAN (T - t2))).map (fun span => (t2, span)))

/-- The body of the source's inner loops: given the running
`(best, bestChoice)` accumulator and one `(t2, span)` candidate, skip
scores below 0.15 and keep the first strictly better total. -/
def dpStepFn (f : ℕ → ℕ → ℕ → ℚ) (next : ℕ → ℚ) (s : ℕ)
    (acc : ℚ × Option (ℕ × ℕ)) (o : ℕ × ℕ) : ℚ × Option (ℕ × ℕ) :=
  if f s o.1 o.2 < 0.15 then acc
  else if acc.1 < f s o.1 o.2 + next (o.1 + o.2) then
    (f s o.1 o.2 + next (o.1 + o.2), some o)
  else acc

/-- One evaluation of the source's inner loops at DP state `(s, t)`:
starting from the skip option (`best = dp[s+1][t]`, no choice recorded),
fold over all `(t2, span)` windows.  Returns the pair
`(dp[s][t], choice[s][t])`, with `none` as the `{skip: true}` marker. -/
def dpStep (f : ℕ → ℕ → ℕ → ℚ) (next : ℕ → ℚ) (T s t : ℕ) : ℚ × Option (ℕ × ℕ) :=
  (optionPairs T t).foldl (dpStepFn f next s) (next t, none)

/-- The source's DP table value `dp[s][t]`, defined by the backward
recurrence the fill loop implements (row `s` only reads row `s + 1`).
`f` is the score table. -/
def dp (f : ℕ → ℕ → ℕ → ℚ) (S T s t : ℕ) : ℚ :=
  if _h : s < S then (dpStep f (fun u => dp f S T (s + 1) u) T s t).1 else 0
termination_by S - s
decreasing_by omega

/-- The source's `choice[s][t]`: the recorded option of the same fold
that produced `dp[s][t]`. -/
def choice (f : ℕ → ℕ → ℕ → ℚ) (S T s t : ℕ) : Option (ℕ × ℕ) :=
  if s < S then (dpStep f (fun u => dp f S T (s + 1) u) T s t).2 else none

/-- One assignment of the source traceback.  `seg = some (segStart,
segEnd)` is the half-open matched window; `none` models the source's
`segStart = segEnd = -1` sentinel of a skipped line. -/
structure Assignment where
  scriptIdx : ℕ
  seg : Option (ℕ × ℕ)
  score : ℚ
deriving DecidableEq

/-- The source's traceback loop from state `(s, t)`: follow the recorded
choices, emitting one assignment per script line. -/
def traceback (f : ℕ → ℕ → ℕ → ℚ) (S T s t : ℕ) : List Assignment :=
  if _h : s < S then
    match choice f S T s t with
    | none => ⟨s, none, 0⟩ :: traceback f S T (s + 1) t
    | some (t2, span) =>
        ⟨s, some (t2, t2 + span), f s t2 span⟩ :: traceback f S T (s + 1) (t2 + span)
  else []
termination_by S - s
decreasing_by all_goals omega

/-- Source `dpAlign(scriptTokens, segments).assignments`. -/
def dpAlign (scriptTokens : List (List Str)) (segments : List Segment) : List Assignment :=
  traceback (spanScore scriptTokens segments) scriptTokens.length segments.length 0 0

-- ─── Word-level trimming (source: trimToWords) ──────────────────────────────

/-- JS `a.includes(b)`: `b` occurs contiguously inside `a`. -/
def jsIncludes : Str → Str → Bool
  | [], s => s.isPrefixOf []
  | c :: t, s => s.isPrefixOf (c :: t) || jsIncludes t s

/-- The source's bidirectional substring test between a flattened word's
normalized text and a script token:
`w.text.includes(tok) || tok.includes(w.text)`. -/
def wordMatchTest (wtext tok : Str) : Bool :=
  jsIncludes wtext tok || jsIncludes tok wtext

/-- The `allWords` list of `trimToWords`: flatten each segment's word
list to (normalized text, start, end) triples; a segment without a
non-empty word array contributes one pseudo-word spanning the segment. -/
def flatWords (segments : List Segment) : List Word :=
  segments.flatMap (fun seg =>
    match seg.words with
    | some ws =>
        if ws ≠ [] then ws.map (fun w => ⟨normalize w.text, w.start, w.stop⟩)
        else [⟨normalize seg.text, seg.start, seg.stop⟩]
    | none => [⟨normalize seg.text, seg.start, seg.stop⟩])

/-- A default segment, standing in for JS `undefined` in the `?.` / `??`
fallbacks of the source (never reached on the call paths of `align`). -/
def noSegment : Segment := ⟨[], 0, 0, none⟩

/-- Source `trimToWords(scriptLine, segments)`: find word-level start/end
times by matching the first and last script tokens against the flattened
word list, falling back to the full range when the candidates are not
properly ordered. -/
def trimToWords (scriptLine : Str) (segments : List Segment) : ℚ × ℚ :=
  let scriptWords := tokenize scriptLine
  if scriptWords = [] then
    ((segments.headD noSegment).start, (segments.getLastD noSegment).stop)
  else
    let allWords := flatWords segments
    if allWords = [] then
      ((segments.headD noSegment).start, (segments.getLastD noSegment).stop)
    else
      let firstScriptWord := scriptWords.headD []
      let lastScriptWord := scriptWords.getLastD []
      let trimmedStart :=
        ((allWords.find? (fun w => wordMatchTest w.text firstScriptWord)).getD
          (allWords.headD default)).start
      let trimmedEnd :=
        ((allWords.reverse.find? (fun w => wordMatchTest w.text lastScriptWord)).getD
          (allWords.reverse.headD default)).stop
      if trimmedEnd ≤ trimmedStart then
        ((segments.headD noSegment).start, (segments.getLastD noSegment).stop)
      else (trimmedStart, trimmedEnd)

-- ─── Result assembly (source: alignScriptToTranscript) ──────────────────────

/-- JS `Math.round` on the score range: round half toward positive
infinity. -/
def mathRound (q : ℚ) : ℤ := ⌊q + 1 / 2⌋

/-- The source's `Math.round(x * 1000) / 1000` three-decimal rounding. -/
def round3 (q : ℚ) : ℚ := (mathRound (q * 1000) : ℚ) / 1000

/-- Entry status, the source's string literals. -/
inductive Status where
  | matched
  | approximate
  | unmatched
deriving DecidableEq

/-- One output entry, the source's `AlignmentEntry` object.  Null trimmed
times become `none`. -/
structure AlignmentEntry where
  scriptIndex : ℕ
  scriptLine : Str
  matchedSegments : List ℕ
  matchedText : Str
  trimmedStart : Option ℚ
  trimmedEnd : Option ℚ
  confidence : ℚ
  status : Status
deriving DecidableEq

/-- The source's `stats` object. -/
structure Stats where
  totalLines : ℕ
  matched : ℕ
  approximate : ℕ
  unmatched : ℕ
  avgConfidence : ℚ
deriving DecidableEq

/-- The source's `AlignmentResult` object. -/
structure AlignmentResult where
  entries : List AlignmentEntry
  unusedSegments : List ℕ
  stats : Stats
deriving DecidableEq

/-- The body of the source's `assignments.map((a) => ...)` building one
entry from one traced assignment. -/
def mkEntry (scriptLines : List Str) (segments : List Segment) (a : Assignment) : AlignmentEntry :=
  let scriptLine := scriptLines.getD a.scriptIdx []
  match a.seg with
  | none =>
      { scriptIndex := a.scriptIdx, scriptLine := scriptLine, matchedSegments := [],
        matchedText := [], trimmedStart := none, trimmedEnd := none,
        confidence := 0, status := .unmatched }
  | some (segStart, segEnd) =>
      let matchedSegs := (segments.drop segStart).take (segEnd - segStart)
      let segIndices := List.range' segStart (segEnd - segStart)
      let matchedText := joinSpace (matchedSegs.map (·.text))
      let trimmed := trimToWords scriptLine matchedSegs
      let status : Status :=
        if 0.7 ≤ a.score then .matched
        else if 0.3 ≤ a.score then .approximate
        else .unmatched
      { scriptIndex := a.scriptIdx, scriptLine := scriptLine, matchedSegments := segIndices,
        matchedText := matchedText, trimmedStart := some trimmed.1,
        trimmedEnd := some trimmed.2, confidence := round3 a.score, status := status }

/-- Membership of segment index `i` in the source's `usedSegments` set:
some matched assignment window contains `i`. -/
def segUsed (assignments : List Assignment) (i : ℕ) : Bool :=
  assignments.any (fun a =>
    match a.seg with
    | some p => decide (p.1 ≤ i) && decide (i < p.2)
    | none => false)

/-- Source `alignScriptToTranscript(scriptText, transcript)`.  The thrown
`Error`s become the `Except.error` branch. -/
def alignScriptToTranscript (scriptText : Str) (transcript : Option TranscriptObj) :
    Except String AlignmentResult :=
  if scriptText = [] ∨ transcript = none ∨ (transcript.bind TranscriptObj.segments) = none ∨
      (transcript.bind TranscriptObj.segments) = some [] then
    .error "Both scriptText and a transcript with segments are required."
  else
    let segments := (transcript.bind TranscriptObj.segments).getD []
    let scriptLines := splitScriptIntoLines scriptText
    if scriptLines = [] then
      .error "Script text produced no usable lines after splitting."
    else
      let scriptTokens := scriptLines.map tokenize
      let assignments := dpAlign scriptTokens segments
      let entries := assignments.map (mkEntry scriptLines segments)
      let unusedSegments := (List.range segments.length).filter (fun i => ¬ segUsed assignments i)
      let matchedN := (entries.filter (fun e => e.status = Status.matched)).length
      let approximateN := (entries.filter (fun e => e.status = Status.approximate)).length
      let unmatchedN := (entries.filter (fun e => e.status = Status.unmatched)).length
      let confidences := (entries.filter (fun e => 0 < e.confidence)).map (·.confidence)
      let avgConfidence :=
        if 0 < confidences.length then round3 (confidences.sum / (confidences.length : ℚ)) else 0
      .ok { entries := entries, unusedSegments := unusedSegments,
            stats := { totalLines := entries.length, matched := matchedN,
                       approximate := approximateN, unmatched := unmatchedN,
                       avgConfidence := avgConfidence } }

-- ─── Spec-side notions used by the claims ───────────────────────────────────

/-- Spec-side predicate (from the DP guarantee of §4.4): windows listed in
script order, each a contiguous span of 1–`MAX_SPAN` segments inside
`[0, T)` with score at least 0.15, each starting at or after the running
cursor `t` and consuming its segments exclusively (so windows are
pairwise disjoint and ordered).  Line indices start at `s`. -/
def validFrom (f : ℕ → ℕ → ℕ → ℚ) (T : ℕ) : ℕ → ℕ → List (Option (ℕ × ℕ)) → Prop
  | _, _, [] => True
  | s, t, none :: rest => validFrom f T (s + 1) t rest
  | s, t, some (st, en) :: rest =>
      t ≤ st ∧ st < en ∧ en ≤ st + MAX_SPAN ∧ en ≤ T ∧
        (0.15 : ℚ) ≤ f s st (en - st) ∧ validFrom f T (s + 1) en rest

/-- Spec-side total matched score of a window list whose first entry is
for script line `s`. -/
def totalScore (f : ℕ → ℕ → ℕ → ℚ) : ℕ → List (Option (ℕ × ℕ)) → ℚ
  | _, [] => 0
  | s, none :: rest => totalScore f (s + 1) rest
  | s, some (st, en) :: rest => f s st (en - st) + totalScore f (s + 1) rest

-- ─── Spec-side definitions for individual claims ────────────────────────────

/-- Spec-side (claim C7, literal reading): lowercase, REMOVE characters
other than word characters, whitespace and apostrophes, collapse
whitespace runs, trim. -/
def normalizeRemoval (text : Str) : Str :=
  jsTrim (collapseWs ((text.map jsToLower).filter
    (fun c => isWordChar c || isWsChar c || c = '\'')))

/-- Maximal runs of non-whitespace characters of a string, in order. -/
def wsChunks : Str → List Str
  | [] => []
  | c :: rest =>
    if isWsChar c then wsChunks rest
    else (c :: rest.takeWhile (fun d => !isWsChar d)) :: wsChunks (rest.dropWhile (fun d => !isWsChar d))
termination_by l => l.length
decreasing_by
  · simp only [List.length_cons]
    exact Nat.lt_succ_self _
  · simp only [List.length_cons]
    exact Nat.lt_succ_of_le ((List.dropWhile_sublist _).length_le)

/-- Right-side counterpart of `jsTrim`: strip trailing whitespace only. -/
def rtrim (l : Str) : Str := (l.reverse.dropWhile isWsChar).reverse

/-- Joining the chunks of a string with single spaces, starting mid-run:
the current non-whitespace run continues, and the later chunks follow
behind one space each. -/
def chunksJoinMid (l : Str) : Str :=
  l.takeWhile (fun d => !isWsChar d) ++
    (if wsChunks (l.dropWhile (fun d => !isWsChar d)) = [] then []
     else ' ' :: List.intercalate [' '] (wsChunks (l.dropWhile (fun d => !isWsChar d))))

/-- Spec-side (claim C6): the distinct tokens shared by both sequences. -/
def sharedTokens (a b : List Str) : List Str :=
  a.dedup.filter (fun w => w ∈ b)

/-- Spec-side (claim C9): the true longest-common-subsequence length, as
the maximum length over the common sublists of the two sequences. -/
def lcsSem (a b : List Str) : ℕ :=
  ((a.sublists.filter (fun c => c.Sublist b)).map (fun c => c.length)).foldr max 0

-- ─── Lemmas: text layer ─────────────────────────────────────────────────────

theorem dropWhile_head_false {p : Char → Bool} {l : Str} {d : Char} {tl : Str}
    (h : l.dropWhile p = d :: tl) : p d = false := by
  induction l with
  | nil => simp at h
  | cons c rest ih =>
    rw [List.dropWhile_cons] at h
    by_cases hc : p c
    · rw [if_pos hc] at h; exact ih h
    · rw [if_neg hc] at h
      injection h with h1 _
      subst h1
      simpa using hc

theorem jsTrim_eq_rtrim_dropWhile (l : Str) :
    jsTrim l = rtrim (l.dropWhile isWsChar) := rfl

theorem rtrim_cons_of_neg (c : Char) (l : Str) (h : isWsChar c = false) :
    rtrim (c :: l) = c :: rtrim l := by
  unfold rtrim
  rw [List.reverse_cons, List.dropWhile_append]
  by_cases h0 : l.reverse.dropWhile isWsChar = []
  · simp [h0, List.dropWhile, h]
  · simp [h0, List.isEmpty_iff, List.reverse_append]

theorem rtrim_cons_of_ws (c : Char) (l : Str) (h : isWsChar c = true) :
    rtrim (c :: l) = if rtrim l = [] then [] else c :: rtrim l := by
  unfold rtrim
  rw [List.reverse_cons, List.dropWhile_append]
  by_cases h0 : l.reverse.dropWhile isWsChar = []
  · simp [h0, List.dropWhile, h]
  · simp [h0, List.isEmpty_iff, List.reverse_append]

theorem collapseWsAux_ws_head (c : Char) (rest : Str) (h : isWsChar c = true) :
    collapseWsAux false (c :: rest) = ' ' :: collapseWsAux true rest := by
  simp [collapseWsAux, h]

theorem collapseWsAux_nonws_head (b : Bool) (c : Char) (rest : Str) (h : isWsChar c = false) :
    collapseWsAux b (c :: rest) = c :: collapseWsAux false rest := by
  simp [collapseWsAux, h]

theorem collapseWsAux_true_eq (l : Str) :
    collapseWsAux true l = collapseWsAux false (l.dropWhile isWsChar) := by
  induction l with
  | nil => rfl
  | cons c rest ih =>
    by_cases h : isWsChar c
    · have h1 : collapseWsAux true (c :: rest) = collapseWsAux true rest := by
        simp [collapseWsAux, h]
      rw [h1, List.dropWhile_cons, if_pos h]
      exact ih
    · rw [collapseWsAux_nonws_head true c rest (by simpa using h),
        List.dropWhile_cons, if_neg h,
        collapseWsAux_nonws_head false c rest (by simpa using h)]

theorem dropWhile_collapseWsAux_false (l : Str) :
    (collapseWsAux false l).dropWhile isWsChar =
      collapseWsAux false (l.dropWhile isWsChar) := by
  cases l with
  | nil => rfl
  | cons c rest =>
    by_cases h : isWsChar c
    · rw [collapseWsAux_ws_head c rest h, List.dropWhile_cons,
        if_pos (show isWsChar ' ' = true from rfl), collapseWsAux_true_eq,
        List.dropWhile_cons, if_pos h]
      cases hd : rest.dropWhile isWsChar with
      | nil => rfl
      | cons d tl =>
        rw [collapseWsAux_nonws_head false d tl (dropWhile_head_false hd),
          List.dropWhile_cons, if_neg (by simp [dropWhile_head_false hd])]
    · have h' : isWsChar c = false := by simpa using h
      rw [collapseWsAux_nonws_head false c rest h', List.dropWhile_cons, if_neg h,
        List.dropWhile_cons, if_neg h, collapseWsAux_nonws_head false c rest h']

theorem wsChunks_ws_head (c : Char) (rest : Str) (h : isWsChar c = true) :
    wsChunks (c :: rest) = wsChunks rest := by
  simp [wsChunks, h]

theorem wsChunks_nonws_head (c : Char) (rest : Str) (h : isWsChar c = false) :
    wsChunks (c :: rest) =
      (c :: rest.takeWhile (fun d => !isWsChar d)) ::
        wsChunks (rest.dropWhile (fun d => !isWsChar d)) := by
  simp [wsChunks, h]

theorem wsChunks_dropWhile (l : Str) :
    wsChunks (l.dropWhile isWsChar) = wsChunks l := by
  induction l with
  | nil => rfl
  | cons c rest ih =>
    by_cases h : isWsChar c
    · rw [List.dropWhile_cons, if_pos h, ih, wsChunks_ws_head c rest h]
    · rw [List.dropWhile_cons, if_neg h]

theorem intercalate_cons_ne (x : Str) (xs : List Str) (h : xs ≠ []) :
    List.intercalate [' '] (x :: xs) = x ++ ' ' :: List.intercalate [' '] xs := by
  cases xs with
  | nil => exact absurd rfl h
  | cons y ys =>
    unfold List.intercalate
    rw [List.intersperse_cons_cons]
    simp

theorem intercalate_singleton (x : Str) :
    List.intercalate [' '] [x] = x := by
  unfold List.intercalate
  simp [List.intersperse]

theorem intercalate_wsChunks_of_head (l : Str)
    (h : ∀ d tl, l = d :: tl → isWsChar d = false) :
    List.intercalate [' '] (wsChunks l) = chunksJoinMid l := by
  cases l with
  | nil => simp [chunksJoinMid, wsChunks, List.intercalate]
  | cons c rest =>
    have hc : isWsChar c = false := h c rest rfl
    rw [wsChunks_nonws_head c rest hc]
    unfold chunksJoinMid
    rw [List.takeWhile_cons, List.dropWhile_cons]
    simp only [hc, Bool.not_false, if_true]
    cases hcs : wsChunks (rest.dropWhile (fun d => !isWsChar d)) with
    | nil => simp [intercalate_singleton]
    | cons x xs =>
      rw [intercalate_cons_ne _ _ (by simp)]
      simp

theorem intercalate_wsChunks_ne_nil (x : Str) (xs : List Str) (hx : x ≠ []) :
    List.intercalate [' '] (x :: xs) ≠ [] := by
  cases xs with
  | nil => rw [intercalate_singleton]; exact hx
  | cons y ys =>
    rw [intercalate_cons_ne _ _ (by simp)]
    simp [hx]

theorem wsChunks_head_ne_nil {l : Str} {x : Str} {xs : List Str}
    (hl : ∀ d tl, l = d :: tl → isWsChar d = false)
    (h : wsChunks l = x :: xs) : x ≠ [] := by
  cases l with
  | nil => simp [wsChunks] at h
  | cons c rest =>
    rw [wsChunks_nonws_head c rest (hl c rest rfl)] at h
    injection h with h1 _
    subst h1
    simp

theorem rtrim_collapse_eq_chunksJoinMid (l : Str) :
    rtrim (collapseWsAux false l) = chunksJoinMid l := by
  have H : ∀ n, ∀ l : Str, l.length ≤ n →
      rtrim (collapseWsAux false l) = chunksJoinMid l := by
    intro n
    induction n with
    | zero =>
      intro l hl
      rw [List.length_eq_zero.mp (Nat.le_zero.mp hl)]
      simp [collapseWsAux, rtrim, chunksJoinMid, wsChunks, List.intercalate]
    | succ n ih =>
      intro l hl
      cases l with
      | nil => simp [collapseWsAux, rtrim, chunksJoinMid, wsChunks, List.intercalate]
      | cons c rest =>
        simp only [List.length_cons, Nat.succ_le_succ_iff] at hl
        by_cases h : isWsChar c
        · -- whitespace head: the emitted space survives only before a later chunk
          rw [collapseWsAux_ws_head c rest h, rtrim_cons_of_ws ' ' _ rfl,
            collapseWsAux_true_eq]
          have hlen : (rest.dropWhile isWsChar).length ≤ n :=
            le_trans (List.dropWhile_sublist _).length_le hl
          rw [ih _ hlen]
          have hhead : ∀ d tl, rest.dropWhile isWsChar = d :: tl → isWsChar d = false :=
            fun d tl hd => dropWhile_head_false hd
          rw [← intercalate_wsChunks_of_head _ hhead, wsChunks_dropWhile]
          unfold chunksJoinMid
          rw [List.takeWhile_cons, List.dropWhile_cons]
          simp only [h, Bool.not_true, if_neg (by simp : ¬false = true), List.nil_append]
          rw [wsChunks_ws_head c rest h, ← wsChunks_dropWhile rest]
          cases hcs : wsChunks (rest.dropWhile isWsChar) with
          | nil => simp [List.intercalate]
          | cons x xs =>
            have hx : x ≠ [] := wsChunks_head_ne_nil
              (fun d tl hd => dropWhile_head_false hd) hcs
            simp [intercalate_wsChunks_ne_nil x xs hx]
        · -- non-whitespace head: the run continues on both sides
          have h' : isWsChar c = false := by simpa using h
          rw [collapseWsAux_nonws_head false c rest h', rtrim_cons_of_neg c _ h',
            ih rest hl]
          unfold chunksJoinMid
          rw [List.takeWhile_cons, List.dropWhile_cons]
          simp [h']
  exact H l.length l le_rfl

theorem jsTrim_collapseWs (l : Str) :
    jsTrim (collapseWs l) = List.intercalate [' '] (wsChunks l) := by
  rw [jsTrim_eq_rtrim_dropWhile, collapseWs, dropWhile_collapseWsAux_false,
    rtrim_collapse_eq_chunksJoinMid, ← wsChunks_dropWhile l]
  exact (intercalate_wsChunks_of_head _ (fun d tl hd => dropWhile_head_false hd)).symm

-- ─── Claim C7 ───────────────────────────────────────────────────────────────

/-- Claim C7 (corrected), counterexample: on the input `"a-b"` the code
turns the hyphen into a space (the result is `"a b"`), while the claim's
"removing all characters except word characters, whitespace, and
apostrophes" would delete it (giving `"ab"`); the two disagree. -/
theorem C7_normalize_removal_counterexample :
    normalize ['a', '-', 'b'] = ['a', ' ', 'b'] ∧
    normalizeRemoval ['a', '-', 'b'] = ['a', 'b'] ∧
    normalize ['a', '-', 'b'] ≠ normalizeRemoval ['a', '-', 'b'] := by
  refine ⟨by decide, by decide, by decide⟩

/-- Claim C7 (amended): for every string `text`, `normalize text` equals
the result of lowercasing `text`, REPLACING each character that is not a
word character, whitespace, or an apostrophe WITH A SPACE, collapsing
each run of whitespace to a single space, and trimming — equivalently,
joining the maximal non-whitespace runs of the lowercased,
punctuation-replaced text with single spaces. -/
theorem C7_normalize_replacement_spec (text : Str) :
    normalize text =
      List.intercalate [' '] (wsChunks ((text.map jsToLower).map punctToSpace)) := by
  unfold normalize
  exact jsTrim_collapseWs _

-- ─── Lemmas: firstOccs and shared-token bookkeeping ─────────────────────────

theorem mem_firstOccsAux {x : Str} : ∀ {l seen : List Str},
    x ∈ firstOccsAux seen l ↔ x ∈ l ∧ x ∉ seen := by
  intro l
  induction l with
  | nil => intro seen; simp [firstOccsAux]
  | cons y ys ih =>
    intro seen
    by_cases h : y ∈ seen
    · rw [firstOccsAux, if_pos h, ih]
      simp only [List.mem_cons]
      constructor
      · exact fun hx => ⟨Or.inr hx.1, hx.2⟩
      · rintro ⟨hy | hy, hs⟩
        · exact absurd (hy ▸ h) hs
        · exact ⟨hy, hs⟩
    · rw [firstOccsAux, if_neg h]
      simp only [List.mem_cons, ih, not_or]
      constructor
      · intro h1
        rcases h1 with h1 | ⟨h1, h2, h3⟩
        · exact ⟨Or.inl h1, h1 ▸ h⟩
        · exact ⟨Or.inr h1, h3⟩
      · intro h1
        rcases h1 with ⟨h1 | h1, h2⟩
        · exact Or.inl h1
        · by_cases hxy : x = y
          · exact Or.inl hxy
          · exact Or.inr ⟨h1, hxy, h2⟩

theorem nodup_firstOccsAux : ∀ (l seen : List Str), (firstOccsAux seen l).Nodup := by
  intro l
  induction l with
  | nil => intro seen; simp [firstOccsAux]
  | cons y ys ih =>
    intro seen
    by_cases h : y ∈ seen
    · rw [firstOccsAux, if_pos h]; exact ih seen
    · rw [firstOccsAux, if_neg h]
      exact List.nodup_cons.mpr
        ⟨fun hc => (mem_firstOccsAux.mp hc).2 (List.mem_cons_self y seen), ih _⟩

theorem mem_firstOccs {x : Str} {l : List Str} : x ∈ firstOccs l ↔ x ∈ l := by
  rw [firstOccs, mem_firstOccsAux]
  simp

theorem nodup_firstOccs (l : List Str) : (firstOccs l).Nodup := nodup_firstOccsAux l []

theorem firstOccs_perm_dedup (l : List Str) : List.Perm (firstOccs l) l.dedup :=
  (List.perm_ext_iff_of_nodup (nodup_firstOccs l) l.nodup_dedup).mpr
    (fun x => by rw [mem_firstOccs, List.mem_dedup])

theorem filterMap_ite {β : Type} (g : Str → β) (b : List Str) (l : List Str) :
    l.filterMap (fun w => if w ∈ b then some (g w) else none) =
      (l.filter (fun w => w ∈ b)).map g := by
  induction l with
  | nil => rfl
  | cons x xs ih =>
    by_cases h : x ∈ b <;> simp [List.filterMap_cons, List.filter_cons, h, ih]

-- ─── Claim C5 ───────────────────────────────────────────────────────────────

/-- Claim C5 (confirmed): for all token sequences `a` and `b`,
`combinedScore a b` is `0.35·jaccard + 0.45·lcsRatio +
0.20·wordOrderScore` when both are non-empty, and 0 whenever either
input is empty. -/
theorem C5_combinedScore_weighted_sum (a b : List Str) :
    combinedScore a b =
      if a = [] ∨ b = [] then 0
      else 0.35 * jaccard a b + 0.45 * lcsRatio a b + 0.20 * wordOrderScore a b := rfl

-- ─── Claim C6 ───────────────────────────────────────────────────────────────

/-- Claim C6 (confirmed): `wordOrderScore a b` is 0 when no token is
shared, exactly 0.5 when exactly one distinct token is shared, and
otherwise `max 0 (1 - m)` where `m` is the mean over the shared distinct
tokens of the absolute difference of normalized first-occurrence
positions (each position divided by `max (length - 1) 1`). -/
theorem C6_wordOrderScore_characterization (a b : List Str) :
    wordOrderScore a b =
      if sharedTokens a b = [] then 0
      else if (sharedTokens a b).length = 1 then 0.5
      else
        max 0 (1 -
          ((sharedTokens a b).map (fun w =>
            |(a.indexOf w : ℚ) / ((max (a.length - 1) 1 : ℕ) : ℚ) -
              (b.indexOf w : ℚ) / ((max (b.length - 1) 1 : ℕ) : ℚ)|)).sum /
            ((sharedTokens a b).length : ℚ)) := by
  have hperm : List.Perm ((firstOccs a).filter (fun w => w ∈ b)) (sharedTokens a b) :=
    (firstOccs_perm_dedup a).filter _
  have habs : ∀ w : Str, |normPos a w - normPos b w| =
      |(a.indexOf w : ℚ) / ((max (a.length - 1) 1 : ℕ) : ℚ) -
        (b.indexOf w : ℚ) / ((max (b.length - 1) 1 : ℕ) : ℚ)| := fun w => rfl
  simp only [wordOrderScore]
  rw [filterMap_ite (fun w => (normPos a w, normPos b w)) b (firstOccs a)]
  rw [List.length_map, List.map_map]
  have hmapeq : ((fun p : ℚ × ℚ => |p.1 - p.2|) ∘ fun w => (normPos a w, normPos b w)) =
      fun w => |normPos a w - normPos b w| := rfl
  rw [hmapeq]
  have hlen : ((firstOccs a).filter (fun w => w ∈ b)).length = (sharedTokens a b).length :=
    hperm.length_eq
  have hsum : (((firstOccs a).filter (fun w => w ∈ b)).map
        (fun w => |normPos a w - normPos b w|)).sum =
      ((sharedTokens a b).map (fun w => |normPos a w - normPos b w|)).sum :=
    (hperm.map _).sum_eq
  rw [hlen, hsum]
  simp only [habs]
  rcases hn : (sharedTokens a b).length with _ | n
  · rw [List.length_eq_zero.mp hn]
    simp
  · cases n with
    | zero =>
      have hne : sharedTokens a b ≠ [] := by
        intro hc; rw [hc] at hn; simp at hn
      simp [hn, hne]
    | succ m =>
      have hne : sharedTokens a b ≠ [] := by
        intro hc; rw [hc] at hn; simp at hn
      have h2 : ¬ (m + 1 + 1 < 2) := by omega
      have h1 : ¬ (m + 1 + 1 = 1) := by omega
      simp [hn, hne, h2, h1]

-- ─── Lemmas: semantic LCS and the Uint16 table (claim C9) ───────────────────

theorem le_foldr_max {x : ℕ} : ∀ {l : List ℕ}, x ∈ l → x ≤ l.foldr max 0 := by
  intro l
  induction l with
  | nil => intro h; simp at h
  | cons y ys ih =>
    intro h
    rcases List.mem_cons.mp h with rfl | h
    · exact le_max_left _ _
    · exact le_trans (ih h) (le_max_right _ _)

theorem foldr_max_mem : ∀ (l : List ℕ), l.foldr max 0 = 0 ∨ l.foldr max 0 ∈ l := by
  intro l
  induction l with
  | nil => exact Or.inl rfl
  | cons y ys ih =>
    rcases ih with h | h
    · rw [List.foldr_cons, h, Nat.max_zero]
      exact Or.inr (List.mem_cons_self _ _)
    · rw [List.foldr_cons]
      rcases max_choice y (ys.foldr max 0) with hm | hm <;> rw [hm]
      · exact Or.inr (List.mem_cons_self _ _)
      · exact Or.inr (List.mem_cons_of_mem _ h)

theorem le_lcsSem {c a b : List Str} (ha : c.Sublist a) (hb : c.Sublist b) :
    c.length ≤ lcsSem a b := by
  refine le_foldr_max (List.mem_map_of_mem _ ?_)
  rw [List.mem_filter]
  exact ⟨List.mem_sublists.mpr ha, by simpa using hb⟩

theorem lcsSem_exists (a b : List Str) :
    ∃ c : List Str, c.Sublist a ∧ c.Sublist b ∧ c.length = lcsSem a b := by
  rcases foldr_max_mem ((a.sublists.filter (fun c => c.Sublist b)).map (fun c => c.length))
    with h | h
  · exact ⟨[], List.nil_sublist a, List.nil_sublist b, h.symm⟩
  · rcases List.mem_map.mp h with ⟨c, hc, hlen⟩
    rw [List.mem_filter] at hc
    exact ⟨c, List.mem_sublists.mp hc.1, by simpa using hc.2, hlen⟩

theorem lcsSem_le_left (a b : List Str) : lcsSem a b ≤ a.length := by
  obtain ⟨c, ha, _, hl⟩ := lcsSem_exists a b
  rw [← hl]
  exact ha.length_le

theorem lcsSem_le_right (a b : List Str) : lcsSem a b ≤ b.length := by
  obtain ⟨c, _, hb, hl⟩ := lcsSem_exists a b
  rw [← hl]
  exact hb.length_le

theorem lcsSem_nil_left (b : List Str) : lcsSem [] b = 0 :=
  Nat.le_zero.mp (lcsSem_le_left [] b)

theorem lcsSem_nil_right (a : List Str) : lcsSem a [] = 0 :=
  Nat.le_zero.mp (lcsSem_le_right a [])

theorem lcsSem_cons_eq (x : Str) (xs ys : List Str) :
    lcsSem (x :: xs) (x :: ys) = lcsSem xs ys + 1 := by
  refine le_antisymm ?_ ?_
  · obtain ⟨c, ha, hb, hl⟩ := lcsSem_exists (x :: xs) (x :: ys)
    rw [← hl]
    cases c with
    | nil => simp
    | cons z c =>
      have key : c.length ≤ lcsSem xs ys := by
        cases ha with
        | cons _ ha' =>
          cases hb with
          | cons _ hb' =>
            exact le_trans (Nat.le_succ _) (le_lcsSem ha' hb')
          | cons₂ _ hb' =>
            exact le_lcsSem (List.sublist_of_cons_sublist ha') hb'
        | cons₂ _ ha' =>
          cases hb with
          | cons _ hb' =>
            exact le_lcsSem ha' (List.sublist_of_cons_sublist hb')
          | cons₂ _ hb' =>
            exact le_lcsSem ha' hb'
      simpa using Nat.succ_le_succ key
  · obtain ⟨c, ha, hb, hl⟩ := lcsSem_exists xs ys
    have : (x :: c).length ≤ lcsSem (x :: xs) (x :: ys) :=
      le_lcsSem (ha.cons₂ x) (hb.cons₂ x)
    simpa [hl] using this

theorem lcsSem_cons_ne {x y : Str} (xs ys : List Str) (hxy : x ≠ y) :
    lcsSem (x :: xs) (y :: ys) = max (lcsSem xs (y :: ys)) (lcsSem (x :: xs) ys) := by
  refine le_antisymm ?_ (max_le ?_ ?_)
  · obtain ⟨c, ha, hb, hl⟩ := lcsSem_exists (x :: xs) (y :: ys)
    rw [← hl]
    cases c with
    | nil => simp
    | cons z c =>
      cases ha with
      | cons _ ha' =>
        exact le_trans (le_lcsSem ha' hb) (le_max_left _ _)
      | cons₂ _ ha' =>
        cases hb with
        | cons _ hb' =>
          exact le_trans (le_lcsSem (ha'.cons₂ x) hb') (le_max_right _ _)
        | cons₂ _ hb' => exact absurd rfl hxy
  · obtain ⟨c, ha, hb, hl⟩ := lcsSem_exists xs (y :: ys)
    rw [← hl]
    exact le_lcsSem (ha.cons x) hb
  · obtain ⟨c, ha, hb, hl⟩ := lcsSem_exists (x :: xs) ys
    rw [← hl]
    exact le_lcsSem ha (hb.cons y)

theorem lcsSem_reverse (a b : List Str) : lcsSem a.reverse b.reverse = lcsSem a b := by
  have key : ∀ u v : List Str, lcsSem u.reverse v.reverse ≤ lcsSem u v := by
    intro u v
    obtain ⟨c, ha, hb, hl⟩ := lcsSem_exists u.reverse v.reverse
    rw [← hl, ← List.length_reverse c]
    have ha' : c.reverse.Sublist u := by
      rw [← List.reverse_sublist, List.reverse_reverse]
      exact ha
    have hb' : c.reverse.Sublist v := by
      rw [← List.reverse_sublist, List.reverse_reverse]
      exact hb
    exact le_lcsSem ha' hb'
  refine le_antisymm (key a b) ?_
  have := key a.reverse b.reverse
  rwa [List.reverse_reverse, List.reverse_reverse] at this

theorem lcsSem_snoc_eq (x : Str) (xs ys : List Str) :
    lcsSem (xs ++ [x]) (ys ++ [x]) = lcsSem xs ys + 1 := by
  rw [← lcsSem_reverse, List.reverse_append, List.reverse_append]
  simp only [List.reverse_singleton, List.singleton_append]
  rw [lcsSem_cons_eq, lcsSem_reverse]

theorem lcsSem_snoc_ne {x y : Str} (xs ys : List Str) (hxy : x ≠ y) :
    lcsSem (xs ++ [x]) (ys ++ [y]) =
      max (lcsSem xs (ys ++ [y])) (lcsSem (xs ++ [x]) ys) := by
  rw [← lcsSem_reverse, List.reverse_append, List.reverse_append]
  simp only [List.reverse_singleton, List.singleton_append]
  rw [lcsSem_cons_ne _ _ hxy]
  rw [show (y :: ys.reverse) = (ys ++ [y]).reverse from by simp,
    show (x :: xs.reverse) = (xs ++ [x]).reverse from by simp,
    lcsSem_reverse, lcsSem_reverse]

theorem lcsCell_le (a b : List Str) : ∀ i j, lcsCell a b i j ≤ min i j := by
  intro i
  induction i with
  | zero => intro j; simp [lcsCell]
  | succ i ih =>
    intro j
    induction j with
    | zero => simp [lcsCell, lcsNextRow]
    | succ j ihj =>
      rw [show lcsCell a b (i + 1) (j + 1) = lcsNextRow a b i (lcsCell a b i) (j + 1) from rfl,
        lcsNextRow]
      split
      · have h1 := ih j
        have h2 : (lcsCell a b i j + 1) % 65536 ≤ lcsCell a b i j + 1 := Nat.mod_le _ _
        omega
      · have h1 := ih (j + 1)
        have h2 : lcsNextRow a b i (lcsCell a b i) j ≤ min (i + 1) j := ihj
        omega

theorem lcsCell_exact (a b : List Str) (hmin : min a.length b.length < 65536) :
    ∀ i j, i ≤ a.length → j ≤ b.length →
      lcsCell a b i j = lcsSem (a.take i) (b.take j) := by
  intro i
  induction i with
  | zero =>
    intro j _ _
    rw [List.take_zero, lcsSem_nil_left]
    rfl
  | succ i ih =>
    intro j
    induction j with
    | zero =>
      intro _ _
      rw [List.take_zero, lcsSem_nil_right]
      rfl
    | succ j ihj =>
      intro hi hj
      have hi' : i < a.length := by omega
      have hj' : j < b.length := by omega
      have hga : a[i]? = some a[i] := List.getElem?_eq_getElem hi'
      have hgb : b[j]? = some b[j] := List.getElem?_eq_getElem hj'
      have hta : a.take (i + 1) = a.take i ++ [a[i]] := by
        rw [List.take_succ, hga]
        rfl
      have htb : b.take (j + 1) = b.take j ++ [b[j]] := by
        rw [List.take_succ, hgb]
        rfl
      rw [show lcsCell a b (i + 1) (j + 1) = lcsNextRow a b i (lcsCell a b i) (j + 1) from rfl,
        lcsNextRow]
      by_cases heq : a[i] = b[j]
      · rw [if_pos (by rw [hga, hgb, heq]; exact ⟨rfl, rfl⟩)]
        rw [ih j (by omega) (by omega), hta, htb, ← heq, lcsSem_snoc_eq]
        have hb1 : lcsSem (a.take i) (b.take j) ≤ min i j := by
          have h1 := lcsSem_le_left (a.take i) (b.take j)
          have h2 := lcsSem_le_right (a.take i) (b.take j)
          rw [List.length_take] at h1 h2
          omega
        have hlt : lcsSem (a.take i) (b.take j) + 1 < 65536 := by omega
        exact Nat.mod_eq_of_lt hlt
      · rw [if_neg (by rw [hga, hgb]; simp [heq])]
        rw [show lcsNextRow a b i (lcsCell a b i) j = lcsCell a b (i + 1) j from rfl]
        rw [ih (j + 1) (by omega) hj, ihj (by omega) (by omega), hta, htb,
          lcsSem_snoc_ne _ _ heq]

theorem lcsLength_exact (a b : List Str) (hmin : min a.length b.length < 65536) :
    lcsLength a b = lcsSem a b := by
  unfold lcsLength
  by_cases ha : a.length = 0
  · rw [if_pos (Or.inl ha), List.length_eq_zero.mp ha, lcsSem_nil_left]
  · by_cases hb : b.length = 0
    · rw [if_pos (Or.inr hb), List.length_eq_zero.mp hb, lcsSem_nil_right]
    · rw [if_neg (by simp [ha, hb])]
      rw [lcsCell_exact a b hmin a.length b.length le_rfl le_rfl,
        List.take_length, List.take_length]

theorem lcsCell_replicate (tok : Str) (N : ℕ) :
    ∀ i, i ≤ N → ∀ j, j ≤ N →
      lcsCell (List.replicate N tok) (List.replicate N tok) i j = min i j % 65536 := by
  intro i
  induction i with
  | zero => intro _ j _; simp [lcsCell]
  | succ i ih =>
    intro hi j
    induction j with
    | zero => intro _; simp [lcsCell, lcsNextRow]
    | succ j ihj =>
      intro hj
      have hg : (List.replicate N tok)[i]? = some tok := by
        rw [List.getElem?_replicate, if_pos (by omega)]
      have hg' : (List.replicate N tok)[j]? = some tok := by
        rw [List.getElem?_replicate, if_pos (by omega)]
      rw [show lcsCell (List.replicate N tok) (List.replicate N tok) (i + 1) (j + 1) =
          lcsNextRow (List.replicate N tok) (List.replicate N tok) i
            (lcsCell (List.replicate N tok) (List.replicate N tok) i) (j + 1) from rfl,
        lcsNextRow, if_pos (by rw [hg, hg']; exact ⟨rfl, rfl⟩)]
      rw [ih (by omega) j (by omega)]
      omega

theorem lcsSem_replicate_self (tok : Str) (N : ℕ) :
    lcsSem (List.replicate N tok) (List.replicate N tok) = N := by
  refine le_antisymm ?_ ?_
  · have := lcsSem_le_left (List.replicate N tok) (List.replicate N tok)
    simpa using this
  · have := le_lcsSem (List.Sublist.refl (List.replicate N tok))
      (List.Sublist.refl (List.replicate N tok))
    simpa using this

-- ─── Claim C9 ───────────────────────────────────────────────────────────────

/-- Claim C9 (confirmed): `lcsLength` stores its table cells in 16-bit
unsigned words; whenever the shorter input has fewer than 65536 tokens it
returns the exact LCS length, while on longer inputs the value can wrap
modulo 2^16 — on two equal 65536-token sequences it returns 0 instead of
the true length 65536. -/
theorem C9_lcsLength_uint16 :
    (∀ a b : List Str, min a.length b.length < 65536 → lcsLength a b = lcsSem a b) ∧
    (min (List.replicate 65536 ['x'] : List Str).length
        (List.replicate 65536 ['x'] : List Str).length = 65536 ∧
      lcsLength (List.replicate 65536 ['x']) (List.replicate 65536 ['x']) = 0 ∧
      lcsSem (List.replicate 65536 ['x']) (List.replicate 65536 ['x']) = 65536) := by
  refine ⟨fun a b h => lcsLength_exact a b h,
    by rw [List.length_replicate]; exact min_self _, ?_, lcsSem_replicate_self _ _⟩
  unfold lcsLength
  rw [if_neg (by rw [List.length_replicate]; omega)]
  rw [List.length_replicate, lcsCell_replicate ['x'] 65536 65536 le_rfl 65536 le_rfl]
  omega

/-- Witness for claim C9: the exactness half applied to the concrete
token sequences `["a", "b"]` and `["b"]`. -/
theorem C9_lcsLength_uint16_witness :
    min ([['a'], ['b']] : List Str).length ([['b']] : List Str).length < 65536 ∧
    lcsLength [['a'], ['b']] [['b']] = lcsSem [['a'], ['b']] [['b']] :=
  ⟨by decide, C9_lcsLength_uint16.1 [['a'], ['b']] [['b']] (by decide)⟩

-- ─── Lemmas: the DP fold (claims C1, C2, C4) ────────────────────────────────

theorem dpStepFn_fst_le (f : ℕ → ℕ → ℕ → ℚ) (next : ℕ → ℚ) (s : ℕ)
    (acc : ℚ × Option (ℕ × ℕ)) (o : ℕ × ℕ) : acc.1 ≤ (dpStepFn f next s acc o).1 := by
  unfold dpStepFn
  split
  · exact le_rfl
  · split
    · next h => exact le_of_lt h
    · exact le_rfl

theorem foldl_dpStepFn_fst_le (f : ℕ → ℕ → ℕ → ℚ) (next : ℕ → ℚ) (s : ℕ) :
    ∀ (L : List (ℕ × ℕ)) (acc : ℚ × Option (ℕ × ℕ)),
      acc.1 ≤ (L.foldl (dpStepFn f next s) acc).1 := by
  intro L
  induction L with
  | nil => intro acc; exact le_rfl
  | cons o L ih =>
    intro acc
    exact le_trans (dpStepFn_fst_le f next s acc o) (ih _)

theorem foldl_dpStepFn_ge_option (f : ℕ → ℕ → ℕ → ℚ) (next : ℕ → ℚ) (s : ℕ) :
    ∀ (L : List (ℕ × ℕ)) (acc : ℚ × Option (ℕ × ℕ)) (o : ℕ × ℕ), o ∈ L →
      ¬ f s o.1 o.2 < 0.15 →
      f s o.1 o.2 + next (o.1 + o.2) ≤ (L.foldl (dpStepFn f next s) acc).1 := by
  intro L
  induction L with
  | nil => intro acc o ho; simp at ho
  | cons p L ih =>
    intro acc o ho helig
    rcases List.mem_cons.mp ho with rfl | ho
    · refine le_trans ?_ (foldl_dpStepFn_fst_le f next s L (dpStepFn f next s acc o))
      unfold dpStepFn
      rw [if_neg helig]
      split
      · exact le_rfl
      · next h => exact le_of_not_lt h
    · exact ih _ o ho helig

theorem foldl_dpStepFn_cases (f : ℕ → ℕ → ℕ → ℚ) (next : ℕ → ℚ) (s : ℕ) :
    ∀ (L : List (ℕ × ℕ)) (acc : ℚ × Option (ℕ × ℕ)),
      ((L.foldl (dpStepFn f next s) acc).1 = acc.1 ∧
        (L.foldl (dpStepFn f next s) acc).2 = acc.2) ∨
      (∃ o ∈ L, ¬ f s o.1 o.2 < 0.15 ∧
        (L.foldl (dpStepFn f next s) acc).1 = f s o.1 o.2 + next (o.1 + o.2) ∧
        (L.foldl (dpStepFn f next s) acc).2 = some o) := by
  intro L
  induction L with
  | nil => intro acc; exact Or.inl ⟨rfl, rfl⟩
  | cons p L ih =>
    intro acc
    rw [List.foldl_cons]
    by_cases hel : f s p.1 p.2 < 0.15
    · have hstep : dpStepFn f next s acc p = acc := by
        unfold dpStepFn; rw [if_pos hel]
      rw [hstep]
      rcases ih acc with ⟨h1, h2⟩ | ⟨o, ho, helig, h1, h2⟩
      · exact Or.inl ⟨h1, h2⟩
      · exact Or.inr ⟨o, List.mem_cons_of_mem p ho, helig, h1, h2⟩
    · by_cases hup : acc.1 < f s p.1 p.2 + next (p.1 + p.2)
      · have hstep : dpStepFn f next s acc p = (f s p.1 p.2 + next (p.1 + p.2), some p) := by
          unfold dpStepFn; rw [if_neg hel, if_pos hup]
        rw [hstep]
        rcases ih (f s p.1 p.2 + next (p.1 + p.2), some p) with ⟨h1, h2⟩ | ⟨o, ho, helig, h1, h2⟩
        · exact Or.inr ⟨p, List.mem_cons_self p L, hel, h1, h2⟩
        · exact Or.inr ⟨o, List.mem_cons_of_mem p ho, helig, h1, h2⟩
      · have hstep : dpStepFn f next s acc p = acc := by
          unfold dpStepFn; rw [if_neg hel, if_neg hup]
        rw [hstep]
        rcases ih acc with ⟨h1, h2⟩ | ⟨o, ho, helig, h1, h2⟩
        · exact Or.inl ⟨h1, h2⟩
        · exact Or.inr ⟨o, List.mem_cons_of_mem p ho, helig, h1, h2⟩

theorem mem_optionPairs {T t t2 span : ℕ} :
    (t2, span) ∈ optionPairs T t ↔
      t ≤ t2 ∧ t2 < T ∧ 1 ≤ span ∧ span ≤ MAX_SPAN ∧ t2 + span ≤ T := by
  unfold optionPairs
  rw [List.mem_flatMap]
  constructor
  · rintro ⟨a, ha, hm⟩
    rw [List.mem_range'_1] at ha
    rcases List.mem_map.mp hm with ⟨sp, hsp, heq⟩
    rw [List.mem_range'_1] at hsp
    injection heq with e1 e2
    rw [e1] at ha
    rw [e2] at hsp
    unfold MAX_SPAN at hsp ⊢
    omega
  · rintro ⟨h1, h2, h3, h4, h5⟩
    refine ⟨t2, List.mem_range'_1.mpr ⟨h1, by omega⟩, List.mem_map.mpr ⟨span, ?_, rfl⟩⟩
    rw [List.mem_range'_1]
    unfold MAX_SPAN at *
    omega

theorem dp_of_ge (f : ℕ → ℕ → ℕ → ℚ) (S T s t : ℕ) (h : S ≤ s) : dp f S T s t = 0 := by
  rw [dp, dif_neg (by omega)]

theorem dp_of_lt (f : ℕ → ℕ → ℕ → ℚ) (S T s t : ℕ) (h : s < S) :
    dp f S T s t = (dpStep f (fun u => dp f S T (s + 1) u) T s t).1 := by
  rw [dp, dif_pos h]

theorem choice_of_lt (f : ℕ → ℕ → ℕ → ℚ) (S T s t : ℕ) (h : s < S) :
    choice f S T s t = (dpStep f (fun u => dp f S T (s + 1) u) T s t).2 := by
  rw [choice, if_pos h]

theorem dp_nonneg (f : ℕ → ℕ → ℕ → ℚ) (S T : ℕ) : ∀ s t, 0 ≤ dp f S T s t := by
  have H : ∀ n s t, S - s ≤ n → 0 ≤ dp f S T s t := by
    intro n
    induction n with
    | zero => intro s t h; rw [dp_of_ge f S T s t (by omega)]
    | succ n ih =>
      intro s t h
      by_cases hs : s < S
      · rw [dp_of_lt f S T s t hs]
        refine le_trans (ih (s + 1) t (by omega)) ?_
        exact foldl_dpStepFn_fst_le f _ s _ _
      · rw [dp_of_ge f S T s t (by omega)]
  exact fun s t => H (S - s) s t le_rfl

theorem choice_none_dp (f : ℕ → ℕ → ℕ → ℚ) (S T s t : ℕ) (h : s < S)
    (hc : choice f S T s t = none) : dp f S T s t = dp f S T (s + 1) t := by
  rw [choice_of_lt f S T s t h] at hc
  rw [dp_of_lt f S T s t h]
  unfold dpStep at hc ⊢
  rcases foldl_dpStepFn_cases f (fun u => dp f S T (s + 1) u) s (optionPairs T t)
      (dp f S T (s + 1) t, none) with ⟨h1, _⟩ | ⟨o, _, _, _, h2⟩
  · exact h1
  · rw [h2] at hc; exact absurd hc (by simp)

theorem choice_some_dp (f : ℕ → ℕ → ℕ → ℚ) (S T s t t2 span : ℕ) (h : s < S)
    (hc : choice f S T s t = some (t2, span)) :
    (t2, span) ∈ optionPairs T t ∧ (0.15 : ℚ) ≤ f s t2 span ∧
      dp f S T s t = f s t2 span + dp f S T (s + 1) (t2 + span) := by
  rw [choice_of_lt f S T s t h] at hc
  rw [dp_of_lt f S T s t h]
  unfold dpStep at hc ⊢
  rcases foldl_dpStepFn_cases f (fun u => dp f S T (s + 1) u) s (optionPairs T t)
      (dp f S T (s + 1) t, none) with ⟨_, h2⟩ | ⟨o, ho, helig, h1, h2⟩
  · rw [h2] at hc; exact absurd hc (by simp)
  · rw [h2] at hc
    injection hc with hc
    subst hc
    exact ⟨ho, le_of_not_lt helig, h1⟩

theorem totalScore_le_dp (f : ℕ → ℕ → ℕ → ℚ) (S T : ℕ) :
    ∀ (A : List (Option (ℕ × ℕ))) (s t : ℕ), A.length ≤ S - s →
      validFrom f T s t A → totalScore f s A ≤ dp f S T s t := by
  intro A
  induction A with
  | nil => intro s t _ _; rw [show totalScore f s [] = 0 from rfl]; exact dp_nonneg f S T s t
  | cons o A ih =>
    intro s t hlen hvalid
    rw [List.length_cons] at hlen
    have hs : s < S := by omega
    cases o with
    | none =>
      rw [show totalScore f s (none :: A) = totalScore f (s + 1) A from rfl]
      refine le_trans (ih (s + 1) t (by omega) hvalid) ?_
      rw [dp_of_lt f S T s t hs]
      exact foldl_dpStepFn_fst_le f _ s _ _
    | some w =>
      obtain ⟨st, en⟩ := w
      obtain ⟨h1, h2, h3, h4, h5, h6⟩ := hvalid
      rw [show totalScore f s (some (st, en) :: A) =
        f s st (en - st) + totalScore f (s + 1) A from rfl]
      have hmem : (st, en - st) ∈ optionPairs T t := by
        rw [mem_optionPairs]
        unfold MAX_SPAN at h3 ⊢
        omega
      have hge := foldl_dpStepFn_ge_option f (fun u => dp f S T (s + 1) u) s
        (optionPairs T t) (dp f S T (s + 1) t, none) (st, en - st) hmem
        (not_lt_of_le h5)
      rw [dp_of_lt f S T s t hs]
      unfold dpStep
      refine le_trans ?_ hge
      have hen : st + (en - st) = en := by omega
      rw [hen]
      exact add_le_add_left (ih (s + 1) en (by omega) h6) _

theorem traceback_of_ge (f : ℕ → ℕ → ℕ → ℚ) (S T s t : ℕ) (h : S ≤ s) :
    traceback f S T s t = [] := by
  rw [traceback, dif_neg (by omega)]

theorem traceback_of_none (f : ℕ → ℕ → ℕ → ℚ) (S T s t : ℕ) (h : s < S)
    (hc : choice f S T s t = none) :
    traceback f S T s t = ⟨s, none, 0⟩ :: traceback f S T (s + 1) t := by
  rw [traceback, dif_pos h, hc]

theorem traceback_of_some (f : ℕ → ℕ → ℕ → ℚ) (S T s t t2 span : ℕ) (h : s < S)
    (hc : choice f S T s t = some (t2, span)) :
    traceback f S T s t =
      ⟨s, some (t2, t2 + span), f s t2 span⟩ :: traceback f S T (s + 1) (t2 + span) := by
  rw [traceback, dif_pos h, hc]

theorem traceback_spec (f : ℕ → ℕ → ℕ → ℚ) (S T : ℕ) : ∀ s t,
    (traceback f S T s t).length = S - s ∧
    (traceback f S T s t).map (fun a => a.scriptIdx) = List.range' s (S - s) ∧
    validFrom f T s t ((traceback f S T s t).map (fun a => a.seg)) ∧
    totalScore f s ((traceback f S T s t).map (fun a => a.seg)) = dp f S T s t ∧
    (∀ a ∈ traceback f S T s t,
      (a.seg = none ∧ a.score = 0) ∨
      (∃ t2 span, a.seg = some (t2, t2 + span) ∧ (0.15 : ℚ) ≤ f a.scriptIdx t2 span ∧
        a.score = f a.scriptIdx t2 span)) := by
  have H : ∀ n s t, S - s ≤ n →
      (traceback f S T s t).length = S - s ∧
      (traceback f S T s t).map (fun a => a.scriptIdx) = List.range' s (S - s) ∧
      validFrom f T s t ((traceback f S T s t).map (fun a => a.seg)) ∧
      totalScore f s ((traceback f S T s t).map (fun a => a.seg)) = dp f S T s t ∧
      (∀ a ∈ traceback f S T s t,
        (a.seg = none ∧ a.score = 0) ∨
        (∃ t2 span, a.seg = some (t2, t2 + span) ∧ (0.15 : ℚ) ≤ f a.scriptIdx t2 span ∧
          a.score = f a.scriptIdx t2 span)) := by
    intro n
    induction n with
    | zero =>
      intro s t h
      have hS : S ≤ s := by omega
      rw [traceback_of_ge f S T s t hS]
      refine ⟨by simp; omega, by simp; omega, trivial, ?_, by simp⟩
      rw [List.map_nil, show totalScore f s [] = 0 from rfl, dp_of_ge f S T s t hS]
    | succ n ih =>
      intro s t h
      by_cases hs : s < S
      · have hrange : List.range' s (S - s) = s :: List.range' (s + 1) (S - (s + 1)) := by
          have h1 : S - s = (S - (s + 1)) + 1 := by omega
          rw [h1, List.range'_succ]
        cases hc : choice f S T s t with
        | none =>
          rw [traceback_of_none f S T s t hs hc]
          obtain ⟨ih1, ih2, ih3, ih4, ih5⟩ := ih (s + 1) t (by omega)
          refine ⟨by simp [ih1]; omega, ?_, ?_, ?_, ?_⟩
          · rw [List.map_cons, ih2, hrange]
          · rw [List.map_cons]
            exact ih3
          · rw [List.map_cons,
              show totalScore f s (none :: (traceback f S T (s + 1) t).map (fun a => a.seg)) =
                totalScore f (s + 1) ((traceback f S T (s + 1) t).map (fun a => a.seg)) from rfl,
              ih4, choice_none_dp f S T s t hs hc]
          · intro a ha
            rcases List.mem_cons.mp ha with rfl | ha
            · exact Or.inl ⟨rfl, rfl⟩
            · exact ih5 a ha
        | some w =>
          obtain ⟨t2, span⟩ := w
          obtain ⟨hmem, helig, hdp⟩ := choice_some_dp f S T s t t2 span hs hc
          rw [mem_optionPairs] at hmem
          rw [traceback_of_some f S T s t t2 span hs hc]
          obtain ⟨ih1, ih2, ih3, ih4, ih5⟩ := ih (s + 1) (t2 + span) (by omega)
          refine ⟨by simp [ih1]; omega, ?_, ?_, ?_, ?_⟩
          · rw [List.map_cons, ih2, hrange]
          · rw [List.map_cons]
            refine ⟨hmem.1, by omega, by omega, by omega, ?_, ih3⟩
            have : t2 + span - t2 = span := by omega
            rw [this]
            exact helig
          · rw [List.map_cons,
              show totalScore f s (some (t2, t2 + span) ::
                  (traceback f S T (s + 1) (t2 + span)).map (fun a => a.seg)) =
                f s t2 (t2 + span - t2) +
                  totalScore f (s + 1) ((traceback f S T (s + 1) (t2 + span)).map (fun a => a.seg))
                from rfl,
              ih4, hdp]
            have : t2 + span - t2 = span := by omega
            rw [this]
          · intro a ha
            rcases List.mem_cons.mp ha with rfl | ha
            · refine Or.inr ⟨t2, span, rfl, ?_, rfl⟩
              exact helig
            · exact ih5 a ha
      · have hS : S ≤ s := by omega
        rw [traceback_of_ge f S T s t hS]
        refine ⟨by simp; omega, by simp; omega, trivial, ?_, by simp⟩
        rw [List.map_nil, show totalScore f s [] = 0 from rfl, dp_of_ge f S T s t hS]
  exact fun s t => H (S - s) s t le_rfl

theorem validFrom_window (f : ℕ → ℕ → ℕ → ℚ) (T : ℕ) :
    ∀ (A : List (Option (ℕ × ℕ))) (s t i st en : ℕ),
      validFrom f T s t A → A.get? i = some (some (st, en)) →
      t ≤ st ∧ st < en ∧ en ≤ st + MAX_SPAN ∧ en ≤ T := by
  intro A
  induction A with
  | nil => intro s t i st en _ hg; simp at hg
  | cons o A ih =>
    intro s t i st en hv hg
    cases i with
    | zero =>
      rw [List.get?_cons_zero] at hg
      injection hg with hg
      subst hg
      obtain ⟨h1, h2, h3, h4, _, _⟩ := hv
      exact ⟨h1, h2, h3, h4⟩
    | succ i =>
      rw [List.get?_cons_succ] at hg
      cases o with
      | none => exact ih (s + 1) t i st en hv hg
      | some w =>
        obtain ⟨st', en'⟩ := w
        obtain ⟨h1, h2, _, _, _, h6⟩ := hv
        have := ih (s + 1) en' i st en h6 hg
        exact ⟨by omega, this.2.1, this.2.2.1, this.2.2.2⟩

theorem validFrom_ordered (f : ℕ → ℕ → ℕ → ℚ) (T : ℕ) :
    ∀ (A : List (Option (ℕ × ℕ))) (s t i j st1 en1 st2 en2 : ℕ),
      validFrom f T s t A → i < j →
      A.get? i = some (some (st1, en1)) → A.get? j = some (some (st2, en2)) →
      en1 ≤ st2 := by
  intro A
  induction A with
  | nil => intro s t i j st1 en1 st2 en2 _ _ hg; simp at hg
  | cons o A ih =>
    intro s t i j st1 en1 st2 en2 hv hij hg1 hg2
    cases i with
    | zero =>
      rw [List.get?_cons_zero] at hg1
      injection hg1 with hg1
      subst hg1
      obtain ⟨_, _, _, _, _, h6⟩ := hv
      obtain ⟨j', rfl⟩ : ∃ j', j = j' + 1 := ⟨j - 1, by omega⟩
      rw [List.get?_cons_succ] at hg2
      exact (validFrom_window f T A (s + 1) en1 j' st2 en2 h6 hg2).1
    | succ i =>
      obtain ⟨j', rfl⟩ : ∃ j', j = j' + 1 := ⟨j - 1, by omega⟩
      rw [List.get?_cons_succ] at hg1 hg2
      cases o with
      | none => exact ih (s + 1) t i j' st1 en1 st2 en2 hv (by omega) hg1 hg2
      | some w =>
        obtain ⟨st', en'⟩ := w
        obtain ⟨_, _, _, _, _, h6⟩ := hv
        exact ih (s + 1) en' i j' st1 en1 st2 en2 h6 (by omega) hg1 hg2

-- ─── Claim C1 ───────────────────────────────────────────────────────────────

/-- Claim C1 (confirmed): for every input with at least one script line
and a non-empty segment list, the assignment list produced by `dpAlign`
satisfies the side conditions (each line skipped or matched to one
contiguous window of 1–3 segments scoring at least 0.15, windows
consuming segments exclusively and in order), and its total matched
score is at least that of every assignment satisfying those
conditions. -/
theorem C1_dpAlign_optimal (scriptTokens : List (List Str)) (segments : List Segment)
    (hS : 1 ≤ scriptTokens.length) (_hT : 1 ≤ segments.length) :
    ((dpAlign scriptTokens segments).map (fun a => a.seg)).length = scriptTokens.length ∧
    validFrom (spanScore scriptTokens segments) segments.length 0 0
      ((dpAlign scriptTokens segments).map (fun a => a.seg)) ∧
    (∀ A : List (Option (ℕ × ℕ)), A.length = scriptTokens.length →
      validFrom (spanScore scriptTokens segments) segments.length 0 0 A →
      totalScore (spanScore scriptTokens segments) 0 A ≤
        totalScore (spanScore scriptTokens segments) 0
          ((dpAlign scriptTokens segments).map (fun a => a.seg))) := by
  rw [show dpAlign scriptTokens segments =
    traceback (spanScore scriptTokens segments) scriptTokens.length segments.length 0 0 from rfl]
  obtain ⟨h1, _, h3, h4, _⟩ :=
    traceback_spec (spanScore scriptTokens segments) scriptTokens.length segments.length 0 0
  refine ⟨by rw [List.length_map, h1]; omega, h3, ?_⟩
  intro A hlen hvalid
  rw [h4]
  exact totalScore_le_dp (spanScore scriptTokens segments) scriptTokens.length segments.length
    A 0 0 (by omega) hvalid

/-- Witness for claim C1: the concrete one-line script `"hi"` against the
one-segment transcript `"hi"`, compared with the all-skip assignment. -/
theorem C1_dpAlign_optimal_witness :
    totalScore (spanScore [[['h', 'i']]] [⟨['h', 'i'], 0, 1, none⟩]) 0 [none] ≤
      totalScore (spanScore [[['h', 'i']]] [⟨['h', 'i'], 0, 1, none⟩]) 0
        ((dpAlign [[['h', 'i']]] [⟨['h', 'i'], 0, 1, none⟩]).map (fun a => a.seg)) :=
  (C1_dpAlign_optimal [[['h', 'i']]] [⟨['h', 'i'], 0, 1, none⟩]
    (by decide) (by decide)).2.2 [none] (by decide) trivial

-- ─── Lemmas: concrete evaluation helpers ────────────────────────────────────

theorem round3_eval (q : ℚ) (z : ℤ) (h1 : (z : ℚ) ≤ q * 1000 + 1 / 2)
    (h2 : q * 1000 + 1 / 2 < z + 1) : round3 q = (z : ℚ) / 1000 := by
  unfold round3 mathRound
  rw [show ⌊q * 1000 + 1 / 2⌋ = z from by rw [Int.floor_eq_iff]; exact ⟨h1, h2⟩]

theorem dpAlign_single (toks : List Str) (seg : Segment) (q : ℚ)
    (hq : spanScore [toks] [seg] 0 0 1 = q) (h15 : (0.15 : ℚ) ≤ q) :
    dpAlign [toks] [seg] = [⟨0, some (0, 1), q⟩] := by
  set f := spanScore [toks] [seg] with hf
  have hnext : ∀ u, dp f 1 1 1 u = 0 := fun u => dp_of_ge f 1 1 1 u le_rfl
  have hstep : dpStep f (fun u => dp f 1 1 1 u) 1 0 0 = (q + 0, some (0, 1)) := by
    unfold dpStep
    rw [show optionPairs 1 0 = [(0, 1)] from by decide, List.foldl_cons, List.foldl_nil]
    unfold dpStepFn
    dsimp only
    simp only [hnext, hq]
    rw [if_neg (by linarith), if_pos (by linarith)]
  have hch : choice f 1 1 0 0 = some (0, 1) := by
    rw [choice_of_lt f 1 1 0 0 (by norm_num), hstep]
  rw [show dpAlign [toks] [seg] = traceback f 1 1 0 0 from rfl,
    traceback_of_some f 1 1 0 0 0 1 (by norm_num) hch,
    traceback_of_ge f 1 1 1 1 le_rfl]
  simp [hq]

theorem dpAlign_single2 (toks : List Str) (sA sB : Segment) (q1 q2 q3 : ℚ)
    (h1 : spanScore [toks] [sA, sB] 0 0 1 = q1)
    (h2 : spanScore [toks] [sA, sB] 0 0 2 = q2)
    (h3 : spanScore [toks] [sA, sB] 0 1 1 = q3)
    (ha : (0.15 : ℚ) ≤ q1) (hb : q1 < q2) (hc : ¬ q3 < 0.15) (hd : ¬ q2 < q3) :
    dpAlign [toks] [sA, sB] = [⟨0, some (0, 2), q2⟩] := by
  set f := spanScore [toks] [sA, sB] with hf
  have hnext : ∀ u, dp f 1 2 1 u = 0 := fun u => dp_of_ge f 1 2 1 u le_rfl
  have s1 : dpStepFn f (fun u => dp f 1 2 1 u) 0 (dp f 1 2 1 0, none) (0, 1) =
      (q1 + 0, some (0, 1)) := by
    unfold dpStepFn
    dsimp only
    simp only [hnext, h1]
    rw [if_neg (by linarith), if_pos (by linarith)]
  have s2 : dpStepFn f (fun u => dp f 1 2 1 u) 0 (q1 + 0, some (0, 1)) (0, 2) =
      (q2 + 0, some (0, 2)) := by
    unfold dpStepFn
    dsimp only
    simp only [hnext, h2]
    rw [if_neg (by linarith), if_pos (by linarith)]
  have s3 : dpStepFn f (fun u => dp f 1 2 1 u) 0 (q2 + 0, some (0, 2)) (1, 1) =
      (q2 + 0, some (0, 2)) := by
    unfold dpStepFn
    dsimp only
    simp only [hnext, h3]
    rw [if_neg hc, if_neg (by push_neg at hd ⊢; linarith)]
  have hstep : dpStep f (fun u => dp f 1 2 1 u) 2 0 0 = (q2 + 0, some (0, 2)) := by
    unfold dpStep
    rw [show optionPairs 2 0 = [(0, 1), (0, 2), (1, 1)] from by decide]
    dsimp only
    rw [List.foldl_cons, s1, List.foldl_cons, s2, List.foldl_cons, s3, List.foldl_nil]
  have hch : choice f 1 2 0 0 = some (0, 2) := by
    rw [choice_of_lt f 1 2 0 0 (by norm_num), hstep]
  rw [show dpAlign [toks] [sA, sB] = traceback f 1 2 0 0 from rfl,
    traceback_of_some f 1 2 0 0 0 2 (by norm_num) hch,
    traceback_of_ge f 1 2 1 2 le_rfl]
  simp [h2]

theorem align_ok_entries (scriptText : Str) (transcript : Option TranscriptObj)
    (r : AlignmentResult) (h : alignScriptToTranscript scriptText transcript = .ok r) :
    r.entries = (dpAlign ((splitScriptIntoLines scriptText).map tokenize)
        ((transcript.bind TranscriptObj.segments).getD [])).map
      (mkEntry (splitScriptIntoLines scriptText)
        ((transcript.bind TranscriptObj.segments).getD [])) := by
  unfold alignScriptToTranscript at h
  split at h
  · exact absurd h (by simp)
  · dsimp only at h
    split at h
    · exact absurd h (by simp)
    · rw [Except.ok.injEq] at h
      rw [← h]

set_option maxRecDepth 8000 in
/-- Full evaluation of the aligner on the one-line script `"hi"` against
the one-segment transcript `"hi"` (combined score 0.9). -/
theorem align_eval_hi :
    alignScriptToTranscript ['h', 'i'] (some ⟨some [⟨['h', 'i'], 0, 1, none⟩]⟩) =
      .ok { entries := [{ scriptIndex := 0, scriptLine := ['h', 'i'], matchedSegments := [0],
                          matchedText := ['h', 'i'], trimmedStart := some 0, trimmedEnd := some 1,
                          confidence := 9 / 10, status := .matched }],
            unusedSegments := [],
            stats := { totalLines := 1, matched := 1, approximate := 0, unmatched := 0,
                       avgConfidence := 9 / 10 } } := by
  have hr1 : round3 (9 / 10) = ((900 : ℤ) : ℚ) / 1000 :=
    round3_eval (9 / 10) 900 (by norm_num) (by norm_num)
  have hsc : spanScore [[['h', 'i']]] [⟨['h', 'i'], 0, 1, none⟩] 0 0 1 = 9 / 10 := by
    norm_num +decide [spanScore, scoreMultiSegment, combinedScore, jaccard, lcsRatio,
      wordOrderScore, normPos, firstOccs, firstOccsAux, lcsLength, List.indexOf, List.findIdx,
      List.findIdx.go, abs_eq_max_neg, max_def, List.filterMap_cons, beq_iff_eq, Bool.cond_eq_ite,
      show tokenize (joinSpace [['h', 'i']]) = [['h', 'i']] from by decide,
      show lcsCell [['h', 'i']] [['h', 'i']] 1 1 = 1 from by decide]
  have hDA : dpAlign [[['h', 'i']]] [⟨['h', 'i'], 0, 1, none⟩] = [⟨0, some (0, 1), 9 / 10⟩] :=
    dpAlign_single [['h', 'i']] ⟨['h', 'i'], 0, 1, none⟩ (9 / 10) hsc (by norm_num)
  norm_num +decide [alignScriptToTranscript, mkEntry, hr1, hDA,
    show splitScriptIntoLines ['h', 'i'] = [['h', 'i']] from by decide,
    show tokenize ['h', 'i'] = [['h', 'i']] from by decide,
    show trimToWords ['h', 'i'] [⟨['h', 'i'], 0, 1, none⟩] = (0, 1) from by decide,
    show (List.range 1).filter (fun i => ¬ segUsed [⟨0, some (0, 1), 9 / 10⟩] i) = ([] : List ℕ)
      from by decide]

theorem get?_range'_eq (s n i : ℕ) (h : i < n) :
    (List.range' s n).get? i = some (s + i) := by
  rw [List.get?_eq_getElem?, List.getElem?_eq_getElem (by simpa using h),
    List.getElem_range']
  simp

theorem mkEntry_scriptIndex (L : List Str) (segs : List Segment) (a : Assignment) :
    (mkEntry L segs a).scriptIndex = a.scriptIdx := by
  cases ha : a.seg with
  | none => simp [mkEntry, ha]
  | some w => obtain ⟨st, en⟩ := w; simp [mkEntry, ha]

theorem mkEntry_ms_none (L : List Str) (segs : List Segment) (a : Assignment)
    (h : a.seg = none) : (mkEntry L segs a).matchedSegments = [] := by
  simp [mkEntry, h]

theorem mkEntry_ms_some (L : List Str) (segs : List Segment) (a : Assignment) (st en : ℕ)
    (h : a.seg = some (st, en)) :
    (mkEntry L segs a).matchedSegments = List.range' st (en - st) := by
  simp [mkEntry, h]

-- ─── Claim C2 ───────────────────────────────────────────────────────────────

/-- Claim C2 (confirmed): every successful `align` result has exactly one
entry per script line in script order; each matched entry's segment list
is a contiguous range of 1–3 indices; and across entries in script
order, every segment index claimed by an earlier entry is strictly below
every index claimed by a later entry (so ranges are pairwise disjoint
and strictly increasing). -/
theorem C2_align_entry_invariants (scriptText : Str) (transcript : Option TranscriptObj)
    (r : AlignmentResult) (h : alignScriptToTranscript scriptText transcript = .ok r) :
    r.entries.length = (splitScriptIntoLines scriptText).length ∧
    (∀ i e, r.entries.get? i = some e → e.scriptIndex = i ∧
      (e.matchedSegments ≠ [] →
        ∃ st n, 1 ≤ n ∧ n ≤ 3 ∧ e.matchedSegments = List.range' st n)) ∧
    (∀ i j ei ej, i < j → r.entries.get? i = some ei → r.entries.get? j = some ej →
      ∀ x ∈ ei.matchedSegments, ∀ y ∈ ej.matchedSegments, x < y) := by
  have hent := align_ok_entries scriptText transcript r h
  obtain ⟨t1, t2, t3, t4, t5⟩ :=
    traceback_spec (spanScore ((splitScriptIntoLines scriptText).map tokenize)
        ((transcript.bind TranscriptObj.segments).getD []))
      ((splitScriptIntoLines scriptText).map tokenize).length
      ((transcript.bind TranscriptObj.segments).getD []).length 0 0
  rw [show dpAlign ((splitScriptIntoLines scriptText).map tokenize)
      ((transcript.bind TranscriptObj.segments).getD []) =
    traceback (spanScore ((splitScriptIntoLines scriptText).map tokenize)
        ((transcript.bind TranscriptObj.segments).getD []))
      ((splitScriptIntoLines scriptText).map tokenize).length
      ((transcript.bind TranscriptObj.segments).getD []).length 0 0 from rfl] at hent
  set TB := traceback (spanScore ((splitScriptIntoLines scriptText).map tokenize)
      ((transcript.bind TranscriptObj.segments).getD []))
    ((splitScriptIntoLines scriptText).map tokenize).length
    ((transcript.bind TranscriptObj.segments).getD []).length 0 0 with hTB
  have hM3 : MAX_SPAN = 3 := rfl
  have hget : ∀ i (a : Assignment), TB.get? i = some a → a.scriptIdx = i := by
    intro i a ha
    obtain ⟨hlt, -⟩ := List.get?_eq_some.mp ha
    have hcong := congrArg (fun l => l.get? i) t2
    simp only [List.get?_map, ha, Option.map_some'] at hcong
    rw [get?_range'_eq 0 _ i (by rw [← t1]; exact hlt)] at hcong
    injection hcong with hcong
    omega
  have hwin : ∀ i (a : Assignment), TB.get? i = some a →
      (TB.map (fun a => a.seg)).get? i = some a.seg := by
    intro i a ha
    rw [List.get?_map, ha, Option.map_some']
  refine ⟨?_, ?_, ?_⟩
  · rw [hent, List.length_map, t1, List.length_map]
    omega
  · intro i e he
    rw [hent, List.get?_map] at he
    rcases hTBi : TB.get? i with _ | a
    · rw [hTBi] at he; exact absurd he (by simp)
    · rw [hTBi, Option.map_some'] at he
      injection he with he
      subst he
      refine ⟨by rw [mkEntry_scriptIndex]; exact hget i a hTBi, ?_⟩
      intro hms
      cases hseg : a.seg with
      | none => exact absurd (mkEntry_ms_none _ _ _ hseg) hms
      | some w =>
        obtain ⟨st, en⟩ := w
        have hfacts := validFrom_window _ _ (TB.map (fun a => a.seg)) 0 0 i st en t3
          (by rw [hwin i a hTBi, hseg])
        refine ⟨st, en - st, by omega, by omega, mkEntry_ms_some _ _ _ st en hseg⟩
  · intro i j ei ej hij hei hej x hx y hy
    rw [hent, List.get?_map] at hei hej
    rcases hTBi : TB.get? i with _ | a
    · rw [hTBi] at hei; exact absurd hei (by simp)
    rcases hTBj : TB.get? j with _ | b
    · rw [hTBj] at hej; exact absurd hej (by simp)
    rw [hTBi, Option.map_some'] at hei
    rw [hTBj, Option.map_some'] at hej
    injection hei with hei
    injection hej with hej
    subst hei; subst hej
    cases hsega : a.seg with
    | none => rw [mkEntry_ms_none _ _ _ hsega] at hx; simp at hx
    | some wa =>
      obtain ⟨st1, en1⟩ := wa
      cases hsegb : b.seg with
      | none => rw [mkEntry_ms_none _ _ _ hsegb] at hy; simp at hy
      | some wb =>
        obtain ⟨st2, en2⟩ := wb
        rw [mkEntry_ms_some _ _ _ st1 en1 hsega] at hx
        rw [mkEntry_ms_some _ _ _ st2 en2 hsegb] at hy
        rw [List.mem_range'_1] at hx hy
        have hfa := validFrom_window _ _ (TB.map (fun a => a.seg)) 0 0 i st1 en1 t3
          (by rw [hwin i a hTBi, hsega])
        have hord := validFrom_ordered _ _ (TB.map (fun a => a.seg)) 0 0 i j st1 en1 st2 en2 t3
          hij (by rw [hwin i a hTBi, hsega]) (by rw [hwin j b hTBj, hsegb])
        omega

/-- Witness for claim C2: the entry-per-line count on the concrete
`"hi"` alignment. -/
theorem C2_align_entry_invariants_witness :
    ({ entries := [{ scriptIndex := 0, scriptLine := ['h', 'i'], matchedSegments := [0],
                     matchedText := ['h', 'i'], trimmedStart := some 0, trimmedEnd := some 1,
                     confidence := 9 / 10, status := .matched }],
       unusedSegments := [],
       stats := { totalLines := 1, matched := 1, approximate := 0, unmatched := 0,
                  avgConfidence := 9 / 10 } } : AlignmentResult).entries.length =
      (splitScriptIntoLines ['h', 'i']).length :=
  (C2_align_entry_invariants ['h', 'i'] (some ⟨some [⟨['h', 'i'], 0, 1, none⟩]⟩) _
    align_eval_hi).1

-- ─── C3: error conditions of alignScriptToTranscript ────────────────────────

/-- `splitOnChar` never returns the empty list of pieces. -/
theorem splitOnChar_ne_nil (sep : Char) (l : Str) : splitOnChar sep l ≠ [] := by
  cases l with
  | nil => simp [splitOnChar]
  | cons c rest =>
    unfold splitOnChar
    rw [List.foldr_cons]
    split <;> simp

/-- Every character of a piece produced by `splitOnChar` occurs in the
original string. -/
theorem mem_of_mem_splitOnChar (sep : Char) :
    ∀ (l : Str) (p : Str) (c : Char), p ∈ splitOnChar sep l → c ∈ p → c ∈ l := by
  intro l
  induction l with
  | nil =>
    intro p c hp hc
    simp [splitOnChar] at hp
    subst hp
    simp at hc
  | cons d rest ih =>
    intro p c hp hc
    have hne := splitOnChar_ne_nil sep rest
    obtain ⟨hd, tl, hP⟩ : ∃ hd tl, splitOnChar sep rest = hd :: tl := by
      cases hS : splitOnChar sep rest with
      | nil => exact absurd hS hne
      | cons a b => exact ⟨a, b, rfl⟩
    unfold splitOnChar at hp
    rw [List.foldr_cons] at hp
    rw [show (rest.foldr (fun c acc =>
        if c = sep then [] :: acc else (c :: acc.headD []) :: acc.tail) [[]]) =
      splitOnChar sep rest from rfl, hP] at hp
    by_cases hds : d = sep
    · rw [if_pos hds] at hp
      rcases List.mem_cons.mp hp with h | h
      · subst h; simp at hc
      · exact List.mem_cons_of_mem d (ih p c (hP ▸ h) hc)
    · rw [if_neg hds] at hp
      rcases List.mem_cons.mp hp with h | h
      · subst h
        simp only [List.headD_cons] at hc
        rcases List.mem_cons.mp hc with h' | h'
        · exact h' ▸ List.mem_cons_self d rest
        · exact List.mem_cons_of_mem d
            (ih hd c (hP ▸ List.mem_cons_self hd tl) h')
      · simp only [List.tail_cons] at h
        exact List.mem_cons_of_mem d
          (ih p c (hP ▸ List.mem_cons_of_mem hd h) hc)

/-- Trimming a whitespace-only string yields the empty string. -/
theorem jsTrim_eq_nil_of_ws (l : Str) (h : ∀ c ∈ l, isWsChar c = true) :
    jsTrim l = [] := by
  unfold jsTrim
  rw [List.dropWhile_eq_nil_iff.mpr h]
  rfl

/-- A whitespace-only script produces no usable lines. -/
theorem splitScriptIntoLines_eq_nil_of_ws (scriptText : Str)
    (h : ∀ c ∈ scriptText, isWsChar c = true) :
    splitScriptIntoLines scriptText = [] := by
  unfold splitScriptIntoLines
  rw [List.flatMap_eq_nil_iff]
  intro raw hraw
  have htrim : jsTrim raw = [] :=
    jsTrim_eq_nil_of_ws raw (fun c hc =>
      h c (mem_of_mem_splitOnChar '\n' scriptText raw c hraw hc))
  simp only [htrim]
  rfl

/-- C3. `alignScriptToTranscript` returns an error exactly when the script
text is empty or whitespace-only, the transcript is absent, its segment
list is missing or empty, or line-splitting yields zero usable lines; in
every other case the result is `Except.ok`. -/
theorem C3_align_error_iff (scriptText : Str) (transcript : Option TranscriptObj) :
    (∃ e, alignScriptToTranscript scriptText transcript = Except.error e) ↔
      (scriptText = [] ∨ (∀ c ∈ scriptText, isWsChar c = true) ∨ transcript = none ∨
        transcript.bind TranscriptObj.segments = none ∨
        transcript.bind TranscriptObj.segments = some [] ∨
        splitScriptIntoLines scriptText = []) := by
  unfold alignScriptToTranscript
  split
  · next hc =>
    constructor
    · intro _
      rcases hc with h | h | h | h
      · exact Or.inl h
      · exact Or.inr (Or.inr (Or.inl h))
      · exact Or.inr (Or.inr (Or.inr (Or.inl h)))
      · exact Or.inr (Or.inr (Or.inr (Or.inr (Or.inl h))))
    · intro _
      exact ⟨_, rfl⟩
  · next hc =>
    push_neg at hc
    obtain ⟨h1, h2, h3, h4⟩ := hc
    dsimp only
    split
    · next hl =>
      constructor
      · intro _
        exact Or.inr (Or.inr (Or.inr (Or.inr (Or.inr hl))))
      · intro _
        exact ⟨_, rfl⟩
    · next hl =>
      constructor
      · intro ⟨e, he⟩
        exact absurd he (by simp)
      · intro hdis
        exfalso
        rcases hdis with h | h | h | h | h | h
        · exact h1 h
        · exact hl (splitScriptIntoLines_eq_nil_of_ws scriptText h)
        · exact h2 h
        · exact h3 h
        · exact h4 h
        · exact hl h

-- ─── C4: confidence bounds and the status thresholds ───────────────────────

/-- `firstOccs` lists are duplicate-free (they model JS `Set` keys). -/
theorem firstOccs_nodup (l : List Str) : (firstOccs l).Nodup :=
  (firstOccs_perm_dedup l).nodup_iff.mpr l.nodup_dedup

theorem jaccard_nonneg (a b : List Str) : 0 ≤ jaccard a b := by
  simp only [jaccard]
  split_ifs
  · exact le_refl 0
  · exact le_refl 0
  · positivity

theorem jaccard_le_one (a b : List Str) : jaccard a b ≤ 1 := by
  simp only [jaccard]
  split_ifs with h1 h2
  · norm_num
  · norm_num
  · rw [div_le_one (by exact_mod_cast Nat.pos_of_ne_zero h2)]
    have hIA : ((firstOccs a).filter (· ∈ firstOccs b)).length ≤ (firstOccs a).length :=
      List.length_filter_le _ _
    have hIB : ((firstOccs a).filter (· ∈ firstOccs b)).length ≤ (firstOccs b).length := by
      have hnd : ((firstOccs a).filter (· ∈ firstOccs b)).Nodup :=
        (firstOccs_nodup a).filter _
      have hsub : ((firstOccs a).filter (· ∈ firstOccs b)) ⊆ firstOccs b := by
        intro x hx
        simp only [List.mem_filter, decide_eq_true_eq] at hx
        exact hx.2
      exact (hnd.subperm hsub).length_le
    have key : ((firstOccs a).filter (· ∈ firstOccs b)).length ≤
        (firstOccs a).length + (firstOccs b).length -
          ((firstOccs a).filter (· ∈ firstOccs b)).length := by
      omega
    exact_mod_cast key

theorem lcsRatio_nonneg (a b : List Str) : 0 ≤ lcsRatio a b := by
  simp only [lcsRatio]
  split_ifs
  · exact le_refl 0
  · positivity

theorem lcsRatio_le_one (a b : List Str) : lcsRatio a b ≤ 1 := by
  simp only [lcsRatio]
  split_ifs with h
  · norm_num
  · rw [div_le_one (by exact_mod_cast Nat.pos_of_ne_zero h)]
    have hle : lcsLength a b ≤ max a.length b.length := by
      unfold lcsLength
      split_ifs with h2
      · omega
      · have := lcsCell_le a b a.length b.length
        omega
    exact_mod_cast hle

/-- `max 0 (1 - mean)` stays below 1 when the mean is an average of
nonnegative values. -/
theorem max_zero_one_sub_le_one (L : List ℚ) (hL : ∀ x ∈ L, 0 ≤ x) (n : ℚ) (hn : 0 ≤ n) :
    max 0 (1 - L.sum / n) ≤ 1 := by
  have hs : 0 ≤ L.sum := List.sum_nonneg hL
  have hd : 0 ≤ L.sum / n := div_nonneg hs hn
  apply max_le (by norm_num)
  linarith

theorem wordOrderScore_nonneg (a b : List Str) : 0 ≤ wordOrderScore a b := by
  simp only [wordOrderScore]
  split_ifs
  · norm_num
  · exact le_refl 0
  · exact le_max_left 0 _

theorem wordOrderScore_le_one (a b : List Str) : wordOrderScore a b ≤ 1 := by
  simp only [wordOrderScore]
  split_ifs
  · norm_num
  · norm_num
  · refine max_zero_one_sub_le_one _ ?_ _ (by positivity)
    intro x hx
    obtain ⟨p, -, hp⟩ := List.mem_map.mp hx
    rw [← hp]
    exact abs_nonneg _

theorem combinedScore_nonneg (a b : List Str) : 0 ≤ combinedScore a b := by
  unfold combinedScore
  split_ifs
  · exact le_refl 0
  · have h1 := jaccard_nonneg a b
    have h2 := lcsRatio_nonneg a b
    have h3 := wordOrderScore_nonneg a b
    linarith

theorem combinedScore_le_one (a b : List Str) : combinedScore a b ≤ 1 := by
  unfold combinedScore
  split_ifs
  · norm_num
  · have h1 := jaccard_nonneg a b
    have h2 := lcsRatio_nonneg a b
    have h3 := wordOrderScore_nonneg a b
    have h4 := jaccard_le_one a b
    have h5 := lcsRatio_le_one a b
    have h6 := wordOrderScore_le_one a b
    linarith

theorem spanScore_nonneg (toks : List (List Str)) (segs : List Segment) (s t span : ℕ) :
    0 ≤ spanScore toks segs s t span :=
  combinedScore_nonneg _ _

theorem spanScore_le_one (toks : List (List Str)) (segs : List Segment) (s t span : ℕ) :
    spanScore toks segs s t span ≤ 1 :=
  combinedScore_le_one _ _

/-- Milli-thresholds survive rounding from below: if `z/1000 ≤ q` then
`z/1000 ≤ round3 q`. -/
theorem le_round3 (z : ℤ) (q : ℚ) (h : (z : ℚ) / 1000 ≤ q) : (z : ℚ) / 1000 ≤ round3 q := by
  have hz : (z : ℚ) ≤ q * 1000 + 1 / 2 := by
    rw [div_le_iff₀ (by norm_num : (0 : ℚ) < 1000)] at h
    linarith
  have hf : z ≤ mathRound (q * 1000) := Int.le_floor.mpr hz
  unfold round3
  gcongr

/-- Milli-thresholds survive rounding from above: if `q ≤ z/1000` then
`round3 q ≤ z/1000`. -/
theorem round3_le (z : ℤ) (q : ℚ) (h : q ≤ (z : ℚ) / 1000) : round3 q ≤ (z : ℚ) / 1000 := by
  have hz : q * 1000 + 1 / 2 < (z : ℚ) + 1 := by
    rw [le_div_iff₀ (by norm_num : (0 : ℚ) < 1000)] at h
    linarith
  have hf : mathRound (q * 1000) ≤ z := by
    have hlt : mathRound (q * 1000) < z + 1 := Int.floor_lt.mpr (by push_cast; linarith)
    omega
  unfold round3
  gcongr

theorem mkEntry_none_fields (L : List Str) (segs : List Segment) (a : Assignment)
    (h : a.seg = none) :
    (mkEntry L segs a).confidence = 0 ∧ (mkEntry L segs a).status = Status.unmatched := by
  simp [mkEntry, h]

theorem mkEntry_some_fields (L : List Str) (segs : List Segment) (a : Assignment) (st en : ℕ)
    (h : a.seg = some (st, en)) :
    (mkEntry L segs a).confidence = round3 a.score ∧
    (mkEntry L segs a).status =
      (if 0.7 ≤ a.score then Status.matched
       else if 0.3 ≤ a.score then Status.approximate else Status.unmatched) := by
  simp [mkEntry, h]

/-- Claim C4, amended: every entry's confidence lies in `[0, 1]`, and the
thresholds relate status to the ROUNDED confidence only one-sidedly:
matched entries have confidence at least 0.7, approximate entries have
confidence in `[0.3, 0.7]`, unmatched entries at most 0.3.  Status is
decided on the raw score BEFORE rounding, so it is not a function of the
confidence value: a raw score just below 0.7 rounds up to exactly 0.7
while the status stays `approximate`. -/
theorem C4_entry_confidence_bounds (scriptText : Str) (transcript : Option TranscriptObj)
    (r : AlignmentResult) (h : alignScriptToTranscript scriptText transcript = Except.ok r) :
    ∀ e ∈ r.entries,
      0 ≤ e.confidence ∧ e.confidence ≤ 1 ∧
      (e.status = Status.matched → (7 : ℚ) / 10 ≤ e.confidence) ∧
      (e.status = Status.approximate →
        (3 : ℚ) / 10 ≤ e.confidence ∧ e.confidence ≤ (7 : ℚ) / 10) ∧
      (e.status = Status.unmatched → e.confidence ≤ (3 : ℚ) / 10) := by
  intro e he
  rw [align_ok_entries scriptText transcript r h] at he
  obtain ⟨a, ha, hae⟩ := List.mem_map.mp he
  subst hae
  have ha' : a ∈ traceback (spanScore ((splitScriptIntoLines scriptText).map tokenize)
      ((transcript.bind TranscriptObj.segments).getD []))
      ((splitScriptIntoLines scriptText).map tokenize).length
      ((transcript.bind TranscriptObj.segments).getD []).length 0 0 := ha
  have hspec := (traceback_spec (spanScore ((splitScriptIntoLines scriptText).map tokenize)
      ((transcript.bind TranscriptObj.segments).getD []))
      ((splitScriptIntoLines scriptText).map tokenize).length
      ((transcript.bind TranscriptObj.segments).getD []).length 0 0).2.2.2.2 a ha'
  rcases hspec with ⟨hseg, hsc0⟩ | ⟨t2, span, hseg, h15, hsc⟩
  · obtain ⟨hc, hs⟩ :=
      mkEntry_none_fields (splitScriptIntoLines scriptText)
        ((transcript.bind TranscriptObj.segments).getD []) a hseg
    refine ⟨by rw [hc], by rw [hc]; norm_num, ?_, ?_, ?_⟩
    · intro hm; rw [hs] at hm; exact Status.noConfusion hm
    · intro hm; rw [hs] at hm; exact Status.noConfusion hm
    · intro _; rw [hc]; norm_num
  · have h0 : 0 ≤ a.score := by
      rw [hsc]; exact spanScore_nonneg _ _ _ _ _
    have h1 : a.score ≤ 1 := by
      rw [hsc]; exact spanScore_le_one _ _ _ _ _
    obtain ⟨hc, hs⟩ :=
      mkEntry_some_fields (splitScriptIntoLines scriptText)
        ((transcript.bind TranscriptObj.segments).getD []) a t2 (t2 + span) hseg
    refine ⟨?_, ?_, ?_, ?_, ?_⟩
    · rw [hc]
      have := le_round3 0 a.score (by push_cast; linarith)
      simpa using this
    · rw [hc]
      have := round3_le 1000 a.score (by push_cast; linarith)
      push_cast at this
      linarith
    · intro hm
      rw [hc]
      rw [hs] at hm
      split_ifs at hm with h7
      have := le_round3 700 a.score (by push_cast; linarith)
      push_cast at this
      linarith
    · intro hm
      rw [hc]
      rw [hs] at hm
      split_ifs at hm with h7 h3
      push_neg at h7
      constructor
      · have := le_round3 300 a.score (by push_cast; linarith)
        push_cast at this
        linarith
      · have := round3_le 700 a.score (by push_cast; linarith)
        push_cast at this
        linarith
    · intro hm
      rw [hc]
      rw [hs] at hm
      split_ifs at hm with h7 h3
      push_neg at h3
      have := round3_le 300 a.score (by push_cast; linarith)
      push_cast at this
      linarith

/-- Witness for the amended claim C4: the matched entry of the concrete
`"hi"` alignment has confidence 0.9 inside all the stated bounds. -/
theorem C4_entry_confidence_bounds_witness :
    0 ≤
      ({ scriptIndex := 0, scriptLine := ['h', 'i'], matchedSegments := [0],
         matchedText := ['h', 'i'], trimmedStart := some 0, trimmedEnd := some 1,
         confidence := 9 / 10, status := .matched } : AlignmentEntry).confidence ∧
    ({ scriptIndex := 0, scriptLine := ['h', 'i'], matchedSegments := [0],
       matchedText := ['h', 'i'], trimmedStart := some 0, trimmedEnd := some 1,
       confidence := 9 / 10, status := .matched } : AlignmentEntry).confidence ≤ 1 ∧
    (({ scriptIndex := 0, scriptLine := ['h', 'i'], matchedSegments := [0],
        matchedText := ['h', 'i'], trimmedStart := some 0, trimmedEnd := some 1,
        confidence := 9 / 10, status := .matched } : AlignmentEntry).status = Status.matched →
      (7 : ℚ) / 10 ≤
        ({ scriptIndex := 0, scriptLine := ['h', 'i'], matchedSegments := [0],
           matchedText := ['h', 'i'], trimmedStart := some 0, trimmedEnd := some 1,
           confidence := 9 / 10, status := .matched } : AlignmentEntry).confidence) ∧
    (({ scriptIndex := 0, scriptLine := ['h', 'i'], matchedSegments := [0],
        matchedText := ['h', 'i'], trimmedStart := some 0, trimmedEnd := some 1,
        confidence := 9 / 10, status := .matched } : AlignmentEntry).status = Status.approximate →
      (3 : ℚ) / 10 ≤
        ({ scriptIndex := 0, scriptLine := ['h', 'i'], matchedSegments := [0],
           matchedText := ['h', 'i'], trimmedStart := some 0, trimmedEnd := some 1,
           confidence := 9 / 10, status := .matched } : AlignmentEntry).confidence ∧
      ({ scriptIndex := 0, scriptLine := ['h', 'i'], matchedSegments := [0],
         matchedText := ['h', 'i'], trimmedStart := some 0, trimmedEnd := some 1,
         confidence := 9 / 10, status := .matched } : AlignmentEntry).confidence ≤ (7 : ℚ) / 10) ∧
    (({ scriptIndex := 0, scriptLine := ['h', 'i'], matchedSegments := [0],
        matchedText := ['h', 'i'], trimmedStart := some 0, trimmedEnd := some 1,
        confidence := 9 / 10, status := .matched } : AlignmentEntry).status = Status.unmatched →
      ({ scriptIndex := 0, scriptLine := ['h', 'i'], matchedSegments := [0],
         matchedText := ['h', 'i'], trimmedStart := some 0, trimmedEnd := some 1,
         confidence := 9 / 10, status := .matched } : AlignmentEntry).confidence ≤ (3 : ℚ) / 10) :=
  C4_entry_confidence_bounds ['h', 'i'] (some ⟨some [⟨['h', 'i'], 0, 1, none⟩]⟩) _
    align_eval_hi _ (List.mem_singleton.mpr rfl)

set_option maxRecDepth 8000 in
/-- Counterexample to claim C4 as stated: aligning the one-line script
`"b d a b e"` with the single segment `"a b d a a c e"` gives the raw
score 1959/2800 ≈ 0.6996, which is below the 0.7 threshold (status
`approximate`) but rounds up to a confidence of exactly 0.7 — so status
is NOT the claimed function of the confidence value. -/
theorem C4_status_confidence_counterexample :
    ∃ r, alignScriptToTranscript ['b', ' ', 'd', ' ', 'a', ' ', 'b', ' ', 'e']
        (some ⟨some [⟨['a', ' ', 'b', ' ', 'd', ' ', 'a', ' ', 'a', ' ', 'c', ' ', 'e'],
          0, 1, none⟩]⟩) = Except.ok r ∧
      ∃ e, r.entries = [e] ∧ (7 : ℚ) / 10 ≤ e.confidence ∧ e.status ≠ Status.matched := by
  have hr : round3 (1959 / 2800) = ((700 : ℤ) : ℚ) / 1000 :=
    round3_eval (1959 / 2800) 700 (by norm_num) (by norm_num)
  have hr2 : round3 (7 / 10) = ((700 : ℤ) : ℚ) / 1000 :=
    round3_eval (7 / 10) 700 (by norm_num) (by norm_num)
  have hsc : spanScore [[['b'], ['d'], ['a'], ['b'], ['e']]]
      [⟨['a', ' ', 'b', ' ', 'd', ' ', 'a', ' ', 'a', ' ', 'c', ' ', 'e'], 0, 1, none⟩]
      0 0 1 = 1959 / 2800 := by
    norm_num +decide [spanScore, scoreMultiSegment, combinedScore, jaccard, lcsRatio,
      wordOrderScore, normPos, firstOccs, firstOccsAux, lcsLength, List.indexOf, List.findIdx,
      List.findIdx.go, abs_eq_max_neg, max_def, List.filterMap_cons, beq_iff_eq, Bool.cond_eq_ite,
      show tokenize (joinSpace [['a', ' ', 'b', ' ', 'd', ' ', 'a', ' ', 'a', ' ', 'c', ' ',
          'e']]) = [['a'], ['b'], ['d'], ['a'], ['a'], ['c'], ['e']] from by decide,
      show lcsCell [['b'], ['d'], ['a'], ['b'], ['e']]
          [['a'], ['b'], ['d'], ['a'], ['a'], ['c'], ['e']] 5 7 = 4 from by decide]
  have hDA : dpAlign [[['b'], ['d'], ['a'], ['b'], ['e']]]
      [⟨['a', ' ', 'b', ' ', 'd', ' ', 'a', ' ', 'a', ' ', 'c', ' ', 'e'], 0, 1, none⟩] =
      [⟨0, some (0, 1), 1959 / 2800⟩] :=
    dpAlign_single [['b'], ['d'], ['a'], ['b'], ['e']]
      ⟨['a', ' ', 'b', ' ', 'd', ' ', 'a', ' ', 'a', ' ', 'c', ' ', 'e'], 0, 1, none⟩
      (1959 / 2800) hsc (by norm_num)
  have heval : alignScriptToTranscript ['b', ' ', 'd', ' ', 'a', ' ', 'b', ' ', 'e']
      (some ⟨some [⟨['a', ' ', 'b', ' ', 'd', ' ', 'a', ' ', 'a', ' ', 'c', ' ', 'e'],
        0, 1, none⟩]⟩) =
      .ok { entries := [{ scriptIndex := 0,
                          scriptLine := ['b', ' ', 'd', ' ', 'a', ' ', 'b', ' ', 'e'],
                          matchedSegments := [0],
                          matchedText := ['a', ' ', 'b', ' ', 'd', ' ', 'a', ' ', 'a', ' ',
                            'c', ' ', 'e'],
                          trimmedStart := some 0, trimmedEnd := some 1,
                          confidence := 7 / 10, status := .approximate }],
            unusedSegments := [],
            stats := { totalLines := 1, matched := 0, approximate := 1, unmatched := 0,
                       avgConfidence := 7 / 10 } } := by
    norm_num +decide [alignScriptToTranscript, mkEntry, hr, hr2, hDA,
      show splitScriptIntoLines ['b', ' ', 'd', ' ', 'a', ' ', 'b', ' ', 'e'] =
        [['b', ' ', 'd', ' ', 'a', ' ', 'b', ' ', 'e']] from by decide,
      show tokenize ['b', ' ', 'd', ' ', 'a', ' ', 'b', ' ', 'e'] =
        [['b'], ['d'], ['a'], ['b'], ['e']] from by decide,
      show trimToWords ['b', ' ', 'd', ' ', 'a', ' ', 'b', ' ', 'e']
        [⟨['a', ' ', 'b', ' ', 'd', ' ', 'a', ' ', 'a', ' ', 'c', ' ', 'e'], 0, 1, none⟩] =
        (0, 1) from by decide,
      show (List.range 1).filter (fun i => ¬ segUsed [⟨0, some (0, 1), 1959 / 2800⟩] i) =
        ([] : List ℕ) from by decide]
  refine ⟨_, heval,
    ⟨{ scriptIndex := 0,
       scriptLine := ['b', ' ', 'd', ' ', 'a', ' ', 'b', ' ', 'e'],
       matchedSegments := [0],
       matchedText := ['a', ' ', 'b', ' ', 'd', ' ', 'a', ' ', 'a', ' ', 'c', ' ', 'e'],
       trimmedStart := some 0, trimmedEnd := some 1,
       confidence := 7 / 10, status := .approximate }, rfl, by norm_num, by decide⟩⟩

-- ─── C8: trimming when no segment has word-level timestamps ─────────────────

/-- When no matched segment carries a usable word array, the flattened
word list is exactly one pseudo-word per segment, spanning the segment
and carrying its normalized text. -/
theorem flatWords_pseudo (segments : List Segment)
    (hw : ∀ seg ∈ segments, seg.words = none ∨ seg.words = some []) :
    flatWords segments =
      segments.map (fun seg => (⟨normalize seg.text, seg.start, seg.stop⟩ : Word)) := by
  induction segments with
  | nil => rfl
  | cons s rest ih =>
    have h1 := hw s (List.mem_cons_self s rest)
    have ih' := ih (fun seg hseg => hw seg (List.mem_cons_of_mem s hseg))
    unfold flatWords at ih' ⊢
    rw [List.flatMap_cons, ih', List.map_cons]
    rcases h1 with h | h <;> simp [h]

/-- Claim C8, amended: when every matched segment lacks word-level
timestamps, `trimToWords` never fails, but it does NOT simply return the
first segment's start and the last segment's end.  It searches the
per-segment pseudo-words: the candidate start is the start of the FIRST
segment whose normalized text passes the bidirectional substring test
against the first script token (defaulting to the first segment), the
candidate end symmetrically from the last matching segment, and the full
range `(first.start, last.end)` is used only as the fallback when the
candidates are not properly ordered. -/
theorem C8_trimToWords_segment_level (scriptLine : Str) (segments : List Segment)
    (hw : ∀ seg ∈ segments, seg.words = none ∨ seg.words = some [])
    (hs : tokenize scriptLine ≠ []) (hseg : segments ≠ []) :
    trimToWords scriptLine segments =
      (let pseudo := segments.map (fun seg => (⟨normalize seg.text, seg.start, seg.stop⟩ : Word))
       let cs := ((pseudo.find? (fun w =>
         wordMatchTest w.text ((tokenize scriptLine).headD []))).getD
           (pseudo.headD default)).start
       let ce := ((pseudo.reverse.find? (fun w =>
         wordMatchTest w.text ((tokenize scriptLine).getLastD []))).getD
           (pseudo.reverse.headD default)).stop
       if ce ≤ cs then ((segments.headD noSegment).start, (segments.getLastD noSegment).stop)
       else (cs, ce)) := by
  simp only [trimToWords, flatWords_pseudo segments hw]
  rw [if_neg hs, if_neg (fun hmap => hseg (List.map_eq_nil_iff.mp hmap))]

/-- Witness for the amended claim C8: the script line `"cc bb dd"`
against the wordless segments `"bb"` (0–1) and `"cc dd"` (1–2); the
pseudo-word search returns `(1, 2)`, not the full range `(0, 2)`. -/
theorem C8_trimToWords_segment_level_witness :
    trimToWords ['c', 'c', ' ', 'b', 'b', ' ', 'd', 'd']
        [⟨['b', 'b'], 0, 1, none⟩, ⟨['c', 'c', ' ', 'd', 'd'], 1, 2, none⟩] =
      (let pseudo := [⟨['b', 'b'], (0 : ℚ), 1, none⟩,
          (⟨['c', 'c', ' ', 'd', 'd'], 1, 2, none⟩ : Segment)].map
        (fun seg => (⟨normalize seg.text, seg.start, seg.stop⟩ : Word))
       let cs := ((pseudo.find? (fun w =>
         wordMatchTest w.text ((tokenize ['c', 'c', ' ', 'b', 'b', ' ', 'd', 'd']).headD
           []))).getD (pseudo.headD default)).start
       let ce := ((pseudo.reverse.find? (fun w =>
         wordMatchTest w.text ((tokenize ['c', 'c', ' ', 'b', 'b', ' ', 'd', 'd']).getLastD
           []))).getD (pseudo.reverse.headD default)).stop
       if ce ≤ cs then
         (([⟨['b', 'b'], (0 : ℚ), 1, none⟩,
             (⟨['c', 'c', ' ', 'd', 'd'], 1, 2, none⟩ : Segment)].headD noSegment).start,
          ([⟨['b', 'b'], (0 : ℚ), 1, none⟩,
             (⟨['c', 'c', ' ', 'd', 'd'], 1, 2, none⟩ : Segment)].getLastD noSegment).stop)
       else (cs, ce)) :=
  C8_trimToWords_segment_level ['c', 'c', ' ', 'b', 'b', ' ', 'd', 'd']
    [⟨['b', 'b'], 0, 1, none⟩, ⟨['c', 'c', ' ', 'd', 'd'], 1, 2, none⟩]
    (by decide) (by decide) (by decide)

set_option maxRecDepth 8000 in
/-- Counterexample to claim C8 as stated: the one-line script
`"cc bb dd"` matched against the two wordless segments `"bb"` (0–1) and
`"cc dd"` (1–2).  The entry is matched to both segments, but its
trimmedStart is 1 — the start of the SECOND segment, whose pseudo-word
`"cc dd"` contains the first script token `"cc"` — not the first matched
segment's start 0. -/
theorem C8_trim_counterexample :
    ∃ r, alignScriptToTranscript ['c', 'c', ' ', 'b', 'b', ' ', 'd', 'd']
        (some ⟨some [⟨['b', 'b'], 0, 1, none⟩,
          ⟨['c', 'c', ' ', 'd', 'd'], 1, 2, none⟩]⟩) = Except.ok r ∧
      ∃ e, r.entries = [e] ∧ e.status = Status.matched ∧ e.matchedSegments = [0, 1] ∧
        e.trimmedStart = some 1 ∧
        e.trimmedStart ≠ some ((⟨['b', 'b'], 0, 1, none⟩ : Segment).start) := by
  have hr : round3 (47 / 60) = ((783 : ℤ) : ℚ) / 1000 :=
    round3_eval (47 / 60) 783 (by norm_num) (by norm_num)
  have hr2 : round3 (783 / 1000) = ((783 : ℤ) : ℚ) / 1000 :=
    round3_eval (783 / 1000) 783 (by norm_num) (by norm_num)
  have hsc1 : spanScore [[['c', 'c'], ['b', 'b'], ['d', 'd']]]
      [⟨['b', 'b'], 0, 1, none⟩, ⟨['c', 'c', ' ', 'd', 'd'], 1, 2, none⟩] 0 0 1 = 11 / 30 := by
    norm_num +decide [spanScore, scoreMultiSegment, combinedScore, jaccard, lcsRatio,
      wordOrderScore, normPos, firstOccs, firstOccsAux, lcsLength, List.indexOf, List.findIdx,
      List.findIdx.go, abs_eq_max_neg, max_def, List.filterMap_cons, beq_iff_eq, Bool.cond_eq_ite,
      show tokenize (joinSpace [['b', 'b']]) = [['b', 'b']] from by decide,
      show lcsCell [['c', 'c'], ['b', 'b'], ['d', 'd']] [['b', 'b']] 3 1 = 1 from by decide]
  have hsc2 : spanScore [[['c', 'c'], ['b', 'b'], ['d', 'd']]]
      [⟨['b', 'b'], 0, 1, none⟩, ⟨['c', 'c', ' ', 'd', 'd'], 1, 2, none⟩] 0 0 2 = 47 / 60 := by
    norm_num +decide [spanScore, scoreMultiSegment, combinedScore, jaccard, lcsRatio,
      wordOrderScore, normPos, firstOccs, firstOccsAux, lcsLength, List.indexOf, List.findIdx,
      List.findIdx.go, abs_eq_max_neg, max_def, List.filterMap_cons, beq_iff_eq, Bool.cond_eq_ite,
      show tokenize (joinSpace [['b', 'b'], ['c', 'c', ' ', 'd', 'd']]) =
        [['b', 'b'], ['c', 'c'], ['d', 'd']] from by decide,
      show lcsCell [['c', 'c'], ['b', 'b'], ['d', 'd']]
        [['b', 'b'], ['c', 'c'], ['d', 'd']] 3 3 = 2 from by decide]
  have hsc3 : spanScore [[['c', 'c'], ['b', 'b'], ['d', 'd']]]
      [⟨['b', 'b'], 0, 1, none⟩, ⟨['c', 'c', ' ', 'd', 'd'], 1, 2, none⟩] 0 1 1 = 44 / 60 := by
    norm_num +decide [spanScore, scoreMultiSegment, combinedScore, jaccard, lcsRatio,
      wordOrderScore, normPos, firstOccs, firstOccsAux, lcsLength, List.indexOf, List.findIdx,
      List.findIdx.go, abs_eq_max_neg, max_def, List.filterMap_cons, beq_iff_eq, Bool.cond_eq_ite,
      show tokenize (joinSpace [['c', 'c', ' ', 'd', 'd']]) = [['c', 'c'], ['d', 'd']]
        from by decide,
      show lcsCell [['c', 'c'], ['b', 'b'], ['d', 'd']] [['c', 'c'], ['d', 'd']] 3 2 = 2
        from by decide]
  have hDA : dpAlign [[['c', 'c'], ['b', 'b'], ['d', 'd']]]
      [⟨['b', 'b'], 0, 1, none⟩, ⟨['c', 'c', ' ', 'd', 'd'], 1, 2, none⟩] =
      [⟨0, some (0, 2), 47 / 60⟩] :=
    dpAlign_single2 [['c', 'c'], ['b', 'b'], ['d', 'd']]
      ⟨['b', 'b'], 0, 1, none⟩ ⟨['c', 'c', ' ', 'd', 'd'], 1, 2, none⟩
      (11 / 30) (47 / 60) (44 / 60) hsc1 hsc2 hsc3
      (by norm_num) (by norm_num) (by norm_num) (by norm_num)
  have heval : alignScriptToTranscript ['c', 'c', ' ', 'b', 'b', ' ', 'd', 'd']
      (some ⟨some [⟨['b', 'b'], 0, 1, none⟩, ⟨['c', 'c', ' ', 'd', 'd'], 1, 2, none⟩]⟩) =
      .ok { entries := [{ scriptIndex := 0,
                          scriptLine := ['c', 'c', ' ', 'b', 'b', ' ', 'd', 'd'],
                          matchedSegments := [0, 1],
                          matchedText := ['b', 'b', ' ', 'c', 'c', ' ', 'd', 'd'],
                          trimmedStart := some 1, trimmedEnd := some 2,
                          confidence := 783 / 1000, status := .matched }],
            unusedSegments := [],
            stats := { totalLines := 1, matched := 1, approximate := 0, unmatched := 0,
                       avgConfidence := 783 / 1000 } } := by
    norm_num +decide [alignScriptToTranscript, mkEntry, hr, hr2, hDA,
      show splitScriptIntoLines ['c', 'c', ' ', 'b', 'b', ' ', 'd', 'd'] =
        [['c', 'c', ' ', 'b', 'b', ' ', 'd', 'd']] from by decide,
      show tokenize ['c', 'c', ' ', 'b', 'b', ' ', 'd', 'd'] =
        [['c', 'c'], ['b', 'b'], ['d', 'd']] from by decide,
      show trimToWords ['c', 'c', ' ', 'b', 'b', ' ', 'd', 'd']
        [⟨['b', 'b'], 0, 1, none⟩, ⟨['c', 'c', ' ', 'd', 'd'], 1, 2, none⟩] = (1, 2)
        from by decide,
      show (List.range 2).filter (fun i => ¬ segUsed [⟨0, some (0, 2), 47 / 60⟩] i) =
        ([] : List ℕ) from by decide]
  refine ⟨_, heval,
    ⟨{ scriptIndex := 0,
       scriptLine := ['c', 'c', ' ', 'b', 'b', ' ', 'd', 'd'],
       matchedSegments := [0, 1],
       matchedText := ['b', 'b', ' ', 'c', 'c', ' ', 'd', 'd'],
       trimmedStart := some 1, trimmedEnd := some 2,
       confidence := 783 / 1000, status := .matched }, rfl, rfl, rfl, rfl, by decide⟩⟩

-- ─── C10: empty-text flattened words ────────────────────────────────────────

/-- A flattened word with empty normalized text passes the bidirectional
substring test against every script token: the empty string is a
substring of everything. -/
theorem wordMatchTest_nil_left (tok : Str) : wordMatchTest [] tok = true := by
  cases tok <;> simp [wordMatchTest, jsIncludes, List.isPrefixOf]

/-- Claim C10, amended: an empty-normalized-text word at the head of the
flattened word list passes the test against every token, so the
candidate start is that word's start time regardless of the line's first
token — but `trimToWords` returns that start only when the candidate end
exceeds it; otherwise the safety fallback replaces BOTH times by the
full segment range, and trimmedStart is not the word's start. -/
theorem C10_empty_head_word (scriptLine : Str) (segments : List Segment)
    (w0 : Word) (rest : List Word)
    (hf : flatWords segments = w0 :: rest) (h0 : w0.text = [])
    (hs : tokenize scriptLine ≠ []) :
    trimToWords scriptLine segments =
      (let ce := (((w0 :: rest).reverse.find? (fun w =>
        wordMatchTest w.text ((tokenize scriptLine).getLastD []))).getD
          ((w0 :: rest).reverse.headD default)).stop
       if ce ≤ w0.start then
         ((segments.headD noSegment).start, (segments.getLastD noSegment).stop)
       else (w0.start, ce)) := by
  simp only [trimToWords, hf]
  rw [if_neg hs, if_neg (List.cons_ne_nil w0 rest),
    List.find?_cons_of_pos _ (by simp only [h0]; exact wordMatchTest_nil_left _),
    Option.getD_some]

/-- Witness for the amended claim C10: the line `"hello world"` against
one segment whose words are the punctuation-only `"!!!"` (5–6) followed
by `"world"` (1–2) and `"hello"` (3–4).  The empty-text head word makes
the candidate start 5, the candidate end is 2, so the fallback fires and
`trimToWords` returns the segment range `(0, 10)`, not 5. -/
theorem C10_empty_head_word_witness :
    wordMatchTest [] ['w'] = true ∧
    trimToWords ['h', 'e', 'l', 'l', 'o', ' ', 'w', 'o', 'r', 'l', 'd']
        [⟨['h', 'e', 'l', 'l', 'o', ' ', 'w', 'o', 'r', 'l', 'd'], 0, 10,
          some [⟨['!', '!', '!'], 5, 6⟩, ⟨['w', 'o', 'r', 'l', 'd'], 1, 2⟩,
            ⟨['h', 'e', 'l', 'l', 'o'], 3, 4⟩]⟩] = (0, 10) :=
  ⟨wordMatchTest_nil_left ['w'],
   (C10_empty_head_word ['h', 'e', 'l', 'l', 'o', ' ', 'w', 'o', 'r', 'l', 'd']
      [⟨['h', 'e', 'l', 'l', 'o', ' ', 'w', 'o', 'r', 'l', 'd'], 0, 10,
        some [⟨['!', '!', '!'], 5, 6⟩, ⟨['w', 'o', 'r', 'l', 'd'], 1, 2⟩,
          ⟨['h', 'e', 'l', 'l', 'o'], 3, 4⟩]⟩]
      ⟨[], 5, 6⟩ [⟨['w', 'o', 'r', 'l', 'd'], 1, 2⟩, ⟨['h', 'e', 'l', 'l', 'o'], 3, 4⟩]
      (by decide) rfl (by decide)).trans (by decide)⟩

set_option maxRecDepth 8000 in
/-- Counterexample to claim C10 as stated: the line `"hello world"`
perfectly matches (score 1) the single segment spanning 0–10 whose word
list starts with the punctuation-only word `"!!!"` (5–6).  That word's
normalized text is empty, so it heads the flattened list and sets the
candidate start to 5 — but the candidate end resolves to 2 (`"world"`
at 1–2), the fallback fires, and the entry's trimmedStart is 0, not the
empty-text word's start time 5. -/
theorem C10_trim_counterexample :
    ∃ r, alignScriptToTranscript ['h', 'e', 'l', 'l', 'o', ' ', 'w', 'o', 'r', 'l', 'd']
        (some ⟨some [⟨['h', 'e', 'l', 'l', 'o', ' ', 'w', 'o', 'r', 'l', 'd'], 0, 10,
          some [⟨['!', '!', '!'], 5, 6⟩, ⟨['w', 'o', 'r', 'l', 'd'], 1, 2⟩,
            ⟨['h', 'e', 'l', 'l', 'o'], 3, 4⟩]⟩]⟩) = Except.ok r ∧
      ∃ e, r.entries = [e] ∧ e.status = Status.matched ∧
        (flatWords [⟨['h', 'e', 'l', 'l', 'o', ' ', 'w', 'o', 'r', 'l', 'd'], 0, 10,
            some [⟨['!', '!', '!'], 5, 6⟩, ⟨['w', 'o', 'r', 'l', 'd'], 1, 2⟩,
              ⟨['h', 'e', 'l', 'l', 'o'], 3, 4⟩]⟩]).headD default =
          (⟨[], 5, 6⟩ : Word) ∧
        e.trimmedStart = some 0 ∧ e.trimmedStart ≠ some 5 := by
  have hr : round3 1 = ((1000 : ℤ) : ℚ) / 1000 :=
    round3_eval 1 1000 (by norm_num) (by norm_num)
  have hsc : spanScore [[['h', 'e', 'l', 'l', 'o'], ['w', 'o', 'r', 'l', 'd']]]
      [⟨['h', 'e', 'l', 'l', 'o', ' ', 'w', 'o', 'r', 'l', 'd'], 0, 10,
        some [⟨['!', '!', '!'], 5, 6⟩, ⟨['w', 'o', 'r', 'l', 'd'], 1, 2⟩,
          ⟨['h', 'e', 'l', 'l', 'o'], 3, 4⟩]⟩] 0 0 1 = 1 := by
    norm_num +decide [spanScore, scoreMultiSegment, combinedScore, jaccard, lcsRatio,
      wordOrderScore, normPos, firstOccs, firstOccsAux, lcsLength, List.indexOf, List.findIdx,
      List.findIdx.go, abs_eq_max_neg, max_def, List.filterMap_cons, beq_iff_eq, Bool.cond_eq_ite,
      show tokenize (joinSpace [['h', 'e', 'l', 'l', 'o', ' ', 'w', 'o', 'r', 'l', 'd']]) =
        [['h', 'e', 'l', 'l', 'o'], ['w', 'o', 'r', 'l', 'd']] from by decide,
      show lcsCell [['h', 'e', 'l', 'l', 'o'], ['w', 'o', 'r', 'l', 'd']]
        [['h', 'e', 'l', 'l', 'o'], ['w', 'o', 'r', 'l', 'd']] 2 2 = 2 from by decide]
  have hDA : dpAlign [[['h', 'e', 'l', 'l', 'o'], ['w', 'o', 'r', 'l', 'd']]]
      [⟨['h', 'e', 'l', 'l', 'o', ' ', 'w', 'o', 'r', 'l', 'd'], 0, 10,
        some [⟨['!', '!', '!'], 5, 6⟩, ⟨['w', 'o', 'r', 'l', 'd'], 1, 2⟩,
          ⟨['h', 'e', 'l', 'l', 'o'], 3, 4⟩]⟩] = [⟨0, some (0, 1), 1⟩] :=
    dpAlign_single [['h', 'e', 'l', 'l', 'o'], ['w', 'o', 'r', 'l', 'd']]
      ⟨['h', 'e', 'l', 'l', 'o', ' ', 'w', 'o', 'r', 'l', 'd'], 0, 10,
        some [⟨['!', '!', '!'], 5, 6⟩, ⟨['w', 'o', 'r', 'l', 'd'], 1, 2⟩,
          ⟨['h', 'e', 'l', 'l', 'o'], 3, 4⟩]⟩ 1 hsc (by norm_num)
  have heval : alignScriptToTranscript ['h', 'e', 'l', 'l', 'o', ' ', 'w', 'o', 'r', 'l', 'd']
      (some ⟨some [⟨['h', 'e', 'l', 'l', 'o', ' ', 'w', 'o', 'r', 'l', 'd'], 0, 10,
        some [⟨['!', '!', '!'], 5, 6⟩, ⟨['w', 'o', 'r', 'l', 'd'], 1, 2⟩,
          ⟨['h', 'e', 'l', 'l', 'o'], 3, 4⟩]⟩]⟩) =
      .ok { entries := [{ scriptIndex := 0,
                          scriptLine := ['h', 'e', 'l', 'l', 'o', ' ', 'w', 'o', 'r', 'l', 'd'],
                          matchedSegments := [0],
                          matchedText := ['h', 'e', 'l', 'l', 'o', ' ', 'w', 'o', 'r', 'l', 'd'],
                          trimmedStart := some 0, trimmedEnd := some 10,
                          confidence := 1, status := .matched }],
            unusedSegments := [],
            stats := { totalLines := 1, matched := 1, approximate := 0, unmatched := 0,
                       avgConfidence := 1 } } := by
    norm_num +decide [alignScriptToTranscript, mkEntry, hr, hDA,
      show splitScriptIntoLines ['h', 'e', 'l', 'l', 'o', ' ', 'w', 'o', 'r', 'l', 'd'] =
        [['h', 'e', 'l', 'l', 'o', ' ', 'w', 'o', 'r', 'l', 'd']] from by decide,
      show tokenize ['h', 'e', 'l', 'l', 'o', ' ', 'w', 'o', 'r', 'l', 'd'] =
        [['h', 'e', 'l', 'l', 'o'], ['w', 'o', 'r', 'l', 'd']] from by decide,
      show trimToWords ['h', 'e', 'l', 'l', 'o', ' ', 'w', 'o', 'r', 'l', 'd']
        [⟨['h', 'e', 'l', 'l', 'o', ' ', 'w', 'o', 'r', 'l', 'd'], 0, 10,
          some [⟨['!', '!', '!'], 5, 6⟩, ⟨['w', 'o', 'r', 'l', 'd'], 1, 2⟩,
            ⟨['h', 'e', 'l', 'l', 'o'], 3, 4⟩]⟩] = (0, 10) from by decide,
      show (List.range 1).filter (fun i => ¬ segUsed [⟨0, some (0, 1), 1⟩] i) =
        ([] : List ℕ) from by decide]
  refine ⟨_, heval,
    ⟨{ scriptIndex := 0,
       scriptLine := ['h', 'e', 'l', 'l', 'o', ' ', 'w', 'o', 'r', 'l', 'd'],
       matchedSegments := [0],
       matchedText := ['h', 'e', 'l', 'l', 'o', ' ', 'w', 'o', 'r', 'l', 'd'],
       trimmedStart := some 0, trimmedEnd := some 10,
       confidence := 1, status := .matched }, rfl, rfl, by decide, rfl, by decide⟩⟩

end Aligner
